import Mathlib

/-!
Shallow embedding of `gcp_log_toolbox.py` (B2dfir/gcp_log_toolbox) and proofs
about its log-processing pipeline: the field-path filter engine (`filterLog`),
the temporal window extractors (`timeslice` / `timeframe`, `getTimeDeltas`,
`convertTimeString`) and the format normalizer (`gcloudFormatter`).

Python strings are embedded as `List Char` (`PyStr`), JSON values as the
inductive `Json`, Python exceptions as explicit `Except` results.  Machine
integers do not occur (Python integers are unbounded), so `Int`/`Nat` are
exact.  Every definition is executable.
-/

namespace GcpLogToolbox

/-- Embedding of a Python `str` as its list of characters. -/
abbrev PyStr := List Char

/-- The whitespace set of Python `str.strip()`: space, tab, newline, carriage
return, vertical tab, form feed. -/
def isSpc (c : Char) : Bool :=
  c = ' ' || c = '\t' || c = '\n' || c = '\r' || c = '\x0b' || c = '\x0c'

/-- Python `s.strip()`: drop leading and trailing whitespace. -/
def pyStrip (s : PyStr) : PyStr :=
  ((s.dropWhile isSpc).reverse.dropWhile isSpc).reverse

/-- Python `s.startswith(p)`. -/
def pyStartsWith (p s : PyStr) : Bool := p.isPrefixOf s

/-- Python `s.endswith(p)`. -/
def pyEndsWith (p s : PyStr) : Bool := p.isSuffixOf s

/-- A JSON value as produced by Python `json.loads`: strings, integers,
booleans, null, arrays and objects.  (The repository's records only ever carry
these shapes; floats do not occur in any claim and are left out of the
fragment.)  Objects are association lists in insertion order. -/
inductive Json : Type where
  | str : PyStr → Json
  | num : Int → Json
  | bool : Bool → Json
  | null : Json
  | arr : List Json → Json
  | obj : List (PyStr × Json) → Json

/-- Lookup in a Python dict built by inserting the pairs in list order:
the LAST binding of a key wins, as in `json.loads` of duplicate keys. -/
def lookupField : List (PyStr × Json) → PyStr → Option Json
  | [], _ => none
  | (k, v) :: fs, key =>
      match lookupField fs key with
      | some w => some w
      | none => if k = key then some v else none

/-- The two Python exception classes that the filter engine can raise when
subscripting: `KeyError` (missing dict key) and `TypeError` (subscripting a
non-dict with a string index). -/
inductive PyErr : Type where
  | keyError
  | typeError
deriving DecidableEq

/-- Python `x[key]` for a string `key`: a dict lookup raises `KeyError` when
the key is missing; subscripting a string, list, int, bool or `None` with a
string index raises `TypeError`. -/
def pySubscript : Json → PyStr → Except PyErr Json
  | .obj fs, key =>
      match lookupField fs key with
      | some v => .ok v
      | none => .error .keyError
  | _, _ => .error .typeError

/-- Python `x == value` where `value` is a `str`: true exactly when `x` is a
string with the same characters.  An int, bool, `None`, list or dict compared
with a `str` is `False` in Python (no stringification happens). -/
def pyEqStr : Json → PyStr → Bool
  | .str s, v => s = v
  | _, _ => false

/-- The include-mode body of the per-condition `elif` chain of `filterLog`
(src/gcp_log_toolbox.py lines 610-627), without the `try/except` wrapper.
Result `.ok true` means the record is written for this condition.

Faithful quirks of the source:
* `len(fields) == 4` evaluates `log[fields[0]][fields[1][fields[2]][fields[3]]]`:
  Python first evaluates `log[fields[0]]` (whose `KeyError` is caught), then
  `fields[1][fields[2]]`, which subscripts the string `fields[1]` with the
  string `fields[2]` and raises an uncaught `TypeError`.
* the branches meant for depths 5 and 6 are guarded by a repeated
  `elif len(fields) == 2` (lines 622 and 625) and are dead code, so a path of
  5 or more segments takes no branch at all. -/
def includeRaw (log : Json) (fields : List PyStr) (value : PyStr) :
    Except PyErr Bool :=
  match fields with
  | [f0] => do
      let v ← pySubscript log f0
      pure (pyEqStr v value)
  | [f0, f1] => do
      let v ← pySubscript log f0
      let v ← pySubscript v f1
      pure (pyEqStr v value)
  | [f0, f1, f2] => do
      let v ← pySubscript log f0
      let v ← pySubscript v f1
      let v ← pySubscript v f2
      pure (pyEqStr v value)
  | [f0, _, _, _] => do
      let _ ← pySubscript log f0
      Except.error .typeError
  | _ => pure false

/-- The include-mode condition with its `try/except KeyError: pass`
(src/gcp_log_toolbox.py lines 609-630): a caught `KeyError` simply skips the
condition (no write). -/
def includeTest (log : Json) (fields : List PyStr) (value : PyStr) :
    Except PyErr Bool :=
  match includeRaw log fields value with
  | .error .keyError => .ok false
  | r => r

/-- The exclude-mode body of the per-condition `elif` chain of `filterLog`
(src/gcp_log_toolbox.py lines 632-650), without the `try/except` wrapper.
Result `.ok true` means `excludeCount` is incremented for this condition.
The depth-4 branch raises the same uncaught `TypeError` as in include mode,
and the depth-5/6 branches are the same dead code (repeated
`elif len(fields) == 2`, lines 645 and 648). -/
def excludeRaw (log : Json) (fields : List PyStr) (value : PyStr) :
    Except PyErr Bool :=
  match fields with
  | [f0] => do
      let v ← pySubscript log f0
      pure (!pyEqStr v value)
  | [f0, f1] => do
      let v ← pySubscript log f0
      let v ← pySubscript v f1
      pure (!pyEqStr v value)
  | [f0, f1, f2] => do
      let v ← pySubscript log f0
      let v ← pySubscript v f1
      let v ← pySubscript v f2
      pure (!pyEqStr v value)
  | [f0, _, _, _] => do
      let _ ← pySubscript log f0
      Except.error .typeError
  | _ => pure false

/-- The exclude-mode condition with its `try/except KeyError` handler
(src/gcp_log_toolbox.py line 651-652): a caught `KeyError` increments
`excludeCount`. -/
def excludeTest (log : Json) (fields : List PyStr) (value : PyStr) :
    Except PyErr Bool :=
  match excludeRaw log fields value with
  | .error .keyError => .ok true
  | r => r

/-- Mode string `"include"` as a Python string. -/
def sInclude : PyStr := "include".data

/-- Mode string `"exclude"` as a Python string. -/
def sExclude : PyStr := "exclude".data

/-- One iteration of the `for item in filterList` loop of `filterLog`
(src/gcp_log_toolbox.py lines 605-652) on the state
`(records written so far, excludeCount)`.  `fields = item[0].split(".")`,
`value = item[1].strip()`; the two `if filterString == ...` tests both run in
each iteration, as in the source. -/
def filterStep (log : Json) (filterString : PyStr)
    (st : List Json × Nat) (item : PyStr × PyStr) :
    Except PyErr (List Json × Nat) := do
  let fields := List.splitOn '.' item.1
  let value := pyStrip item.2
  let st1 ←
    if filterString = sInclude then do
      let b ← includeTest log fields value
      pure (if b then (st.1 ++ [log], st.2) else st)
    else
      pure st
  if filterString = sExclude then do
    let b ← excludeTest log fields value
    pure (if b then (st1.1, st1.2 + 1) else (st1.1, st1.2))
  else
    pure st1

/-- Processing of one decoded record by `filterLog`
(src/gcp_log_toolbox.py lines 603-654): run every condition, then in exclude
mode write the record once iff `excludeCount == len(filterList)`.  The
returned list is the sequence of records written to the output for this
record, in order; a raised `TypeError` aborts with `.error`. -/
def filterLogRecord (log : Json) (filterList : List (PyStr × PyStr))
    (filterString : PyStr) : Except PyErr (List Json) := do
  let st ← filterList.foldlM (filterStep log filterString) ([], 0)
  if filterString = sExclude then
    if st.2 = filterList.length then pure (st.1 ++ [log]) else pure st.1
  else
    pure st.1

/-- The whole `filterLog` run over an already-decoded record stream
(src/gcp_log_toolbox.py lines 601-654): records are processed in order and
their emissions concatenated; an uncaught exception aborts the run, keeping
none of the output decisions of later records. -/
def filterLog (records : List Json) (filterList : List (PyStr × PyStr))
    (filterString : PyStr) : Except PyErr (List Json) :=
  records.foldlM
    (fun acc log => do
      let out ← filterLogRecord log filterList filterString
      pure (acc ++ out))
    []

/-- Modelled from the spec (§4.2): resolution of a dotted `FieldPath` by
"descending one segment at a time through nested mappings"; `none` when a key
is missing or a non-mapping is reached.  Used to state what the source's
fixed-depth branches should compute. -/
def resolvePath : Json → List PyStr → Option Json
  | v, [] => some v
  | .obj fs, k :: ks =>
      match lookupField fs k with
      | some v => resolvePath v ks
      | none => none
  | _, _ :: _ => none

/-- Whether a condition makes `includeTest` write the record. -/
def includeHit (log : Json) (item : PyStr × PyStr) : Bool :=
  match includeTest log (List.splitOn '.' item.1) (pyStrip item.2) with
  | .ok true => true
  | _ => false

/-- Whether a record is a JSON object. -/
def isObjB : Json → Bool
  | .obj _ => true
  | _ => false

/-- Depth-1 condition match: the record is an object whose field `f0` is the
string `value`. -/
def depth1Match (r : Json) (f0 value : PyStr) : Bool :=
  match r with
  | .obj fs =>
      match lookupField fs f0 with
      | some v => pyEqStr v value
      | none => false
  | _ => false

/-- The subscripting chain `log[k0][k1]...` as the source's depth-1..3
branches perform it, with Python exception propagation. -/
def chain : Json → List PyStr → Except PyErr Json
  | v, [] => .ok v
  | v, k :: ks => do
      let w ← pySubscript v k
      chain w ks

/-- Whether a condition increments `excludeCount` for a record. -/
def excludeHit (log : Json) (item : PyStr × PyStr) : Bool :=
  match excludeTest log (List.splitOn '.' item.1) (pyStrip item.2) with
  | .ok true => true
  | _ => false

/-- The spec's exclusion criterion for one condition: path resolution fails,
or the resolved value differs from the expected value. -/
def Mismatch (log : Json) (fields : List PyStr) (value : PyStr) : Prop :=
  ∀ v, resolvePath log fields = some v → pyEqStr v value = false

/-- Modelled from the spec (§4.2): the string form of a resolved value,
"numbers, booleans are stringified before comparison", i.e. Python `str()`.
The source never computes this; it is the comparison the spec prescribes. -/
def pyStrOf : Json → PyStr
  | .str s => s
  | .num n => n.repr.data
  | .bool b => if b then "True".data else "False".data
  | .null => "None".data
  -- containers are never compared by the claims; their Python str() form is
  -- not needed, any value serves as a placeholder here
  | .arr _ => []
  | .obj _ => []

/-- Example record, the decoding of the line `{"a": "b"}`. -/
def exRecAB : Json := Json.obj [("a".data, Json.str ("b".data))]

/-- Example record, the decoding of the line `{"a": "c"}`. -/
def exRecAC : Json := Json.obj [("a".data, Json.str ("c".data))]

/-- Example record with a five-level nesting,
`{"a": {"b": {"c": {"d": {"e": "v"}}}}}`. -/
def exRecDeep : Json :=
  Json.obj [("a".data, Json.obj [("b".data, Json.obj [("c".data,
    Json.obj [("d".data, Json.obj [("e".data, Json.str ("v".data))])])])])]

/-- Example record `{"resource": {"type": "gce_instance"}}`. -/
def exRecResource : Json :=
  Json.obj [("resource".data, Json.obj [("type".data, Json.str ("gce_instance".data))])]

/-! ### Calendar and timestamp model

Python `datetime` objects are embedded as microseconds on a linear civil time
line; `daysFromCivil` is the standard proleptic-Gregorian day count (days
since 1970-01-01), so `datetime` comparison and `timedelta` arithmetic become
integer comparison and addition.  All quantities stay exact: Python integers
are unbounded and `timedelta` stores exact microseconds. -/

/-- Leap year in the proleptic Gregorian calendar. -/
def isLeap (y : Int) : Bool :=
  (y % 4 = 0 && !(y % 100 = 0)) || y % 400 = 0

/-- Number of days of month `m` in year `y`, as `datetime` validates it. -/
def daysInMonth (y m : Int) : Int :=
  if m = 2 then (if isLeap y then 29 else 28)
  else if m = 4 || m = 6 || m = 9 || m = 11 then 30
  else 31

/-- Days from 1970-01-01 to the civil date `y-m-d` (Gregorian), the standard
era-based algorithm; all intermediate quantities are non-negative for the
years `1..9999` that `datetime` admits. -/
def daysFromCivil (y m d : Int) : Int :=
  let y' := if m ≤ 2 then y - 1 else y
  let era := (if 0 ≤ y' then y' else y' - 399) / 400
  let yoe := y' - era * 400
  let mp := (m + 9) % 12
  let doy := (153 * mp + 2) / 5 + d - 1
  let doe := yoe * 365 + yoe / 4 - yoe / 100 + doy
  era * 146097 + doe - 719468

/-- Microseconds on the civil time line for the datetime
`y-m-d h:mi:s.us`. -/
def toMicros (y m d h mi s us : Int) : Int :=
  (daysFromCivil y m d * 86400 + h * 3600 + mi * 60 + s) * 1000000 + us

/-- Numeric value of a decimal digit character. -/
def digitVal (c : Char) : Int := (c.toNat : Int) - 48

/-- `datetime` range validation as its constructor performs it (`datetime`
rejects second 60, out-of-range days, year 0). -/
def validDT (y mo d h mi s : Int) : Bool :=
  decide (1 ≤ y) && decide (y ≤ 9999) && decide (1 ≤ mo) && decide (mo ≤ 12) &&
  decide (1 ≤ d) && decide (d ≤ daysInMonth y mo) && decide (0 ≤ h) &&
  decide (h ≤ 23) && decide (0 ≤ mi) && decide (mi ≤ 59) && decide (0 ≤ s) &&
  decide (s ≤ 59)

/-- Model of `datetime.strptime(s, '%Y-%m-%d?%H:%M:%S')` with the given
separator `sep` between date and time, on the zero-padded 19-character shape
that GCP timestamps and the tool's documented input format use; any other
shape is a `ValueError` (`none`).  (CPython's `%Y` would also accept
non-padded digit counts, which never occur in this data and are outside the
fragment.) -/
def parseDT (s : PyStr) (sep : Char) : Option Int :=
  match s with
  | [y1, y2, y3, y4, a1, m1, m2, a2, d1, d2, a3, h1, h2, a4, n1, n2, a5, s1, s2] =>
      if y1.isDigit && y2.isDigit && y3.isDigit && y4.isDigit &&
          m1.isDigit && m2.isDigit && d1.isDigit && d2.isDigit &&
          h1.isDigit && h2.isDigit && n1.isDigit && n2.isDigit &&
          s1.isDigit && s2.isDigit &&
          a1 == '-' && a2 == '-' && a3 == sep && a4 == ':' && a5 == ':' then
        let y := digitVal y1 * 1000 + digitVal y2 * 100 + digitVal y3 * 10 + digitVal y4
        let mo := digitVal m1 * 10 + digitVal m2
        let d := digitVal d1 * 10 + digitVal d2
        let h := digitVal h1 * 10 + digitVal h2
        let mi := digitVal n1 * 10 + digitVal n2
        let sec := digitVal s1 * 10 + digitVal s2
        if validDT y mo d h mi sec then some (toMicros y mo d h mi sec 0) else none
      else none
  | _ => none

/-- `convertTimeString` (src/gcp_log_toolbox.py lines 315-331):
`datetime.strptime(s, '%Y-%m-%d %H:%M:%S')`; on failure the source calls
`sys.exit`, modeled as `none`. -/
def convertTimeString (s : PyStr) : Option Int := parseDT s ' '

/-- The per-record timestamp parse of `timeslice`/`timeframe` (lines 378-379
and 412): `datetime.strptime(log['timestamp'][0:19], '%Y-%m-%dT%H:%M:%S')` —
only the first 19 characters of the field are significant. -/
def parseTimestamp19 (s : PyStr) : Option Int := parseDT (s.take 19) 'T'

/-- `getTimeDeltas` (lines 334-351): `start = t - timedelta(minutes=size/2)`,
`end = t + timedelta(minutes=size/2)`.  `size` is an `int` (argparse
`type=int`) and `size/2` halves it exactly (float division by two is exact
for every magnitude `timedelta` accepts), so each delta is exactly
`size * 30` seconds, i.e. `size * 30000000` microseconds. -/
def getTimeDeltas (dateTimeVal : Int) (size : Int) : Int × Int :=
  (dateTimeVal - size * 30000000, dateTimeVal + size * 30000000)

/-! ### A `json.loads` model for one line

The fragment accepted: objects, arrays, strings without escape sequences or
control characters, integers, `true`/`false`/`null`, with JSON whitespace.
This covers every record the claims touch; escapes and floats are outside the
fragment (the parser rejects them, a conservative under-approximation of
`json.loads` used only on concrete inputs chosen inside the fragment). -/

/-- The whitespace `json.loads` skips between tokens. -/
def isJsonWs (c : Char) : Bool := c == ' ' || c == '\t' || c == '\n' || c == '\r'

/-- Characters allowed in a string literal of the fragment: not the quote,
not the backslash, not a control character (strict-mode `json.loads` rejects
raw control characters). -/
def jsonStrChar (c : Char) : Bool := c != '"' && c != '\\' && decide (32 ≤ c.toNat)

/-- Skip JSON whitespace. -/
def skipWs (s : PyStr) : PyStr := s.dropWhile isJsonWs

/-- Parse the body of a string literal after the opening quote, up to and
including the closing quote. -/
def parseStringBody : PyStr → Option (PyStr × PyStr)
  | [] => none
  | c :: rest =>
      if c == '"' then some ([], rest)
      else if jsonStrChar c then
        match parseStringBody rest with
        | some (s, r) => some (c :: s, r)
        | none => none
      else none

/-- Consume leading decimal digits, most significant first. -/
def parseDigitsAux : PyStr → Nat → Nat × PyStr
  | [], acc => (acc, [])
  | c :: rest, acc =>
      if c.isDigit then parseDigitsAux rest (acc * 10 + (c.toNat - 48))
      else (acc, c :: rest)

/-- Parse an optionally negated integer literal. -/
def parseNum : PyStr → Option (Int × PyStr)
  | '-' :: c :: rest =>
      if c.isDigit then
        let p := parseDigitsAux rest (c.toNat - 48)
        some (-(p.1 : Int), p.2)
      else none
  | c :: rest =>
      if c.isDigit then
        let p := parseDigitsAux rest (c.toNat - 48)
        some ((p.1 : Int), p.2)
      else none
  | [] => none

mutual

/-- Fuel-indexed recursive-descent parser for one JSON value; returns the
value and the unconsumed remainder. -/
def parseVal : Nat → PyStr → Option (Json × PyStr)
  | 0, _ => none
  | fuel + 1, s =>
      match skipWs s with
      | [] => none
      | c :: rest =>
          if c == '"' then
            match parseStringBody rest with
            | some (str, r) => some (Json.str str, r)
            | none => none
          else if c == '[' then
            match skipWs rest with
            | ']' :: r2 => some (Json.arr [], r2)
            | _ => parseItems fuel rest []
          else if c == '\x7b' then
            match skipWs rest with
            | '\x7d' :: r2 => some (Json.obj [], r2)
            | _ => parseFields fuel rest []
          else if c == 't' then
            if ("rue".data).isPrefixOf rest then some (Json.bool true, rest.drop 3)
            else none
          else if c == 'f' then
            if ("alse".data).isPrefixOf rest then some (Json.bool false, rest.drop 4)
            else none
          else if c == 'n' then
            if ("ull".data).isPrefixOf rest then some (Json.null, rest.drop 3)
            else none
          else
            match parseNum (c :: rest) with
            | some (n, r) => some (Json.num n, r)
            | none => none

/-- Parse the comma-separated items of a non-empty array, up to and including
the closing bracket. -/
def parseItems : Nat → PyStr → List Json → Option (Json × PyStr)
  | 0, _, _ => none
  | fuel + 1, s, acc =>
      match parseVal fuel s with
      | none => none
      | some (v, r) =>
          match skipWs r with
          | ',' :: r2 => parseItems fuel r2 (acc ++ [v])
          | ']' :: r2 => some (Json.arr (acc ++ [v]), r2)
          | _ => none

/-- Parse the comma-separated fields of a non-empty object, up to and
including the closing brace. -/
def parseFields : Nat → PyStr → List (PyStr × Json) → Option (Json × PyStr)
  | 0, _, _ => none
  | fuel + 1, s, acc =>
      match skipWs s with
      | '"' :: r =>
          match parseStringBody r with
          | none => none
          | some (k, r2) =>
              match skipWs r2 with
              | ':' :: r3 =>
                  match parseVal fuel r3 with
                  | none => none
                  | some (v, r4) =>
                      match skipWs r4 with
                      | ',' :: r5 => parseFields fuel r5 (acc ++ [(k, v)])
                      | '\x7d' :: r5 => some (Json.obj (acc ++ [(k, v)]), r5)
                      | _ => none
              | _ => none
      | _ => none

end

/-- `json.loads(line)` on one line of the fragment: parse one value and
require only whitespace after it; `none` is a raised `JSONDecodeError`. -/
def decodeLine (s : PyStr) : Option Json :=
  match parseVal (2 * s.length + 2) s with
  | some (v, rest) => if skipWs rest = [] then some v else none
  | none => none

/-! ### The temporal window extractors -/

/-- The Python exceptions the `timeslice`/`timeframe` loop can raise per
line: `json.JSONDecodeError` from `json.loads`, `KeyError` from
`log['timestamp']`, `TypeError` from slicing or parsing a non-string field,
`ValueError` from `strptime`.  None of them is caught in the source. -/
inductive RunErr : Type where
  | jsonDecodeError
  | keyError
  | typeError
  | valueError
deriving DecidableEq

/-- One iteration of the shared selection loop of `timeslice`
(src/gcp_log_toolbox.py lines 375-381) and `timeframe` (lines 410-414), which
duplicate it verbatim: `log = json.loads(line)`;
`tmp = datetime.strptime(log['timestamp'][0:19], '%Y-%m-%dT%H:%M:%S')`;
write the record iff `tmp >= startDateTime and tmp <= endDateTime`.
`some log` means the record is written for this line. -/
def windowLine (startDateTime endDateTime : Int) (line : PyStr) :
    Except RunErr (Option Json) := do
  let log ← match decodeLine line with
    | some j => Except.ok j
    | none => Except.error RunErr.jsonDecodeError
  let tsv ← match log with
    | Json.obj fs =>
        match lookupField fs ("timestamp".data) with
        | some v => Except.ok v
        | none => Except.error RunErr.keyError
    | _ => Except.error RunErr.typeError
  let s ← match tsv with
    | Json.str s => Except.ok s
    | _ => Except.error RunErr.typeError
  let t ← match parseTimestamp19 s with
    | some t => Except.ok t
    | none => Except.error RunErr.valueError
  pure (if startDateTime ≤ t ∧ t ≤ endDateTime then some log else none)

/-- The whole shared line loop over the input file's lines: selected records
are appended to the output in input order; an uncaught exception aborts the
run. -/
def windowFilter (startDateTime endDateTime : Int) (lines : List PyStr) :
    Except RunErr (List Json) :=
  lines.foldlM
    (fun acc line => do
      let r ← windowLine startDateTime endDateTime line
      pure (match r with
            | some log => acc ++ [log]
            | none => acc))
    []

/-- `timeslice` (lines 354-381): parse the centre timestamp, build the
window with `getTimeDeltas`, then run the selection loop; an unparseable
centre string makes the source exit before reading any record (`none`). -/
def timeslice (lines : List PyStr) (size : Int) (dateTimeString : PyStr) :
    Option (Except RunErr (List Json)) :=
  match convertTimeString dateTimeString with
  | none => none
  | some dateTimeVal =>
      let se := getTimeDeltas dateTimeVal size
      some (windowFilter se.1 se.2 lines)

/-- `timeframe` (lines 384-414): split the range string on `>`, parse the
stripped sides as the window bounds, then run the same selection loop; a
malformed range string makes the source exit (or raise `IndexError` when
there is no `>`) before reading any record (`none`). -/
def timeframe (lines : List PyStr) (tf : PyStr) :
    Option (Except RunErr (List Json)) :=
  match List.splitOn '>' tf with
  | t0 :: t1 :: _ =>
      match convertTimeString (pyStrip t0), convertTimeString (pyStrip t1) with
      | some s, some e => some (windowFilter s e lines)
      | _, _ => none
  | _ => none

/-- The record and code-parsed timestamp a clean line decodes to: the line is
a JSON object with a string `timestamp` field whose first 19 characters
parse. -/
def recordTime (line : PyStr) : Option (Json × Int) :=
  match decodeLine line with
  | some (Json.obj fs) =>
      match lookupField fs ("timestamp".data) with
      | some (Json.str s) =>
          match parseTimestamp19 s with
          | some t => some (Json.obj fs, t)
          | none => none
      | _ => none
  | _ => none

/-- Convert an all-digit string, most significant digit first. -/
def digitsToNat (ds : PyStr) : Nat := (parseDigitsAux ds 0).1

/-- Modelled from the spec (§3): the record's Timestamp as an actual point in
time at microsecond resolution, read from ISO-8601-like text
`YYYY-MM-DDTHH:MM:SS[.ffffff][Z]`.  The source never reads the fractional
part; this is the spec-side notion of the record's time, used to compare the
code's truncating parse against the boundary-exclusion sentence of the
claim. -/
def specTimestampMicros (s : PyStr) : Option Int :=
  match parseDT (s.take 19) 'T' with
  | none => none
  | some base =>
      match s.drop 19 with
      | [] => some base
      | ['Z'] => some base
      | '.' :: frac =>
          let digits := frac.takeWhile (fun c => c.isDigit)
          let rest := frac.dropWhile (fun c => c.isDigit)
          if digits.length = 0 || 6 < digits.length then none
          else if rest = [] || rest = ['Z'] then
            some (base + (digitsToNat digits : Int) * (10 : Int) ^ (6 - digits.length))
          else none
      | _ => none

/-! ### The format normalizer `gcloudFormatter`

The normalizer reads the input file line by line (each line carries its
trailing newline, as Python's file iteration yields it) and classifies lines
by prefix; `writeOutput(log, False, output)` appends the accumulated string
verbatim, so the output file content is the concatenation of the emitted
strings. -/

/-- The loop state of `gcloudFormatter`: the accumulation buffer `log` and
the strings written to the output so far. -/
structure FmtState where
  log : PyStr
  out : List PyStr

/-- One iteration of the `for line in f` loop of `gcloudFormatter`
(src/gcp_log_toolbox.py lines 672-697), with the `count`/`notify` progress
logging omitted (it writes nothing):
* a line whose stripped form starts with `[` is skipped (line 677);
* a line starting with `"  {"` is accumulated stripped (line 679);
* a line starting with `"  }"` and, stripped, ending with `","` has its last
  two characters (`",\n"`) removed, is accumulated stripped, and the buffer
  is written and reset to `"\n"` (lines 681-686);
* a line starting with `"  }"` has its last character (`"\n"`) removed, is
  accumulated stripped, and the buffer is written and reset (lines 687-692);
* a line starting with `]` only logs (line 693-694, the loop continues);
* any other line of length above 5 is accumulated stripped (lines 695-697). -/
def fmtStep (st : FmtState) (line : PyStr) : FmtState :=
  if pyStartsWith ("[".data) (pyStrip line) then st
  else if pyStartsWith ("  \x7b".data) line then { st with log := st.log ++ pyStrip line }
  else if pyStartsWith ("  \x7d".data) line && pyEndsWith (",".data) (pyStrip line) then
    { log := "\n".data, out := st.out ++ [st.log ++ pyStrip line.dropLast.dropLast] }
  else if pyStartsWith ("  \x7d".data) line then
    { log := "\n".data, out := st.out ++ [st.log ++ pyStrip line.dropLast] }
  else if pyStartsWith ("]".data) line then st
  else if 5 < line.length then { st with log := st.log ++ pyStrip line }
  else st

/-- `gcloudFormatter` (src/gcp_log_toolbox.py lines 657-698) over the input
file's lines: the sequence of strings passed to
`writeOutput(·, False, output)`, in order. -/
def gcloudFormatter (lines : List PyStr) : List PyStr :=
  (lines.foldl fmtStep ⟨[], []⟩).out

/-- The content of the normalizer's output file: `writeOutput` with
`encode=False` appends each written string verbatim (src lines 144-145). -/
def gcloudOutput (lines : List PyStr) : PyStr :=
  (gcloudFormatter lines).flatten

/-! ### Single-line (compact) serialization

`compact v` is the single-line JSON text the normalizer is expected to emit
for a pretty-printed `v`: stripped pretty lines joined, i.e. `"key": value`
with a space after the colon and `,` between members, no other whitespace. -/

/-- The character of a decimal digit value. -/
def digitChar : Nat → Char
  | 0 => '0'
  | 1 => '1'
  | 2 => '2'
  | 3 => '3'
  | 4 => '4'
  | 5 => '5'
  | 6 => '6'
  | 7 => '7'
  | 8 => '8'
  | _ => '9'

/-- Decimal digits of `n`, most significant first, with explicit fuel (any
fuel at least the digit count gives the digits; `natRepr` supplies it). -/
def natDigitsAux : Nat → Nat → PyStr
  | 0, _ => []
  | fuel + 1, n =>
      if n < 10 then [digitChar n]
      else natDigitsAux fuel (n / 10) ++ [digitChar (n % 10)]

/-- Decimal representation of a natural number. -/
def natRepr (n : Nat) : PyStr := natDigitsAux (n + 1) n

/-- Decimal representation of an integer, as Python prints it. -/
def intRepr (i : Int) : PyStr :=
  if i < 0 then '-' :: natRepr (-i).toNat else natRepr i.toNat

mutual

/-- The single-line serialization of a JSON value in the two-space pretty
convention's token style: `"k": v` fields, `,` separators. -/
def compact : Json → PyStr
  | .str s => '"' :: s ++ ['"']
  | .num n => intRepr n
  | .bool b => if b then "true".data else "false".data
  | .null => "null".data
  | .arr xs => '[' :: compactItems xs ++ [']']
  | .obj fs => '\x7b' :: compactFields fs ++ ['\x7d']

/-- Comma-joined serializations of array items. -/
def compactItems : List Json → PyStr
  | [] => []
  | x :: xs => compact x ++ (if xs.isEmpty then [] else [',']) ++ compactItems xs

/-- Comma-joined serializations of object fields, `"key": value` each. -/
def compactFields : List (PyStr × Json) → PyStr
  | [] => []
  | (k, v) :: fs =>
      '"' :: k ++ '"' :: ':' :: ' ' :: compact v
        ++ (if fs.isEmpty then [] else [',']) ++ compactFields fs

end

/-! ### The pretty-printed input convention (spec §4.1 / §6)

Modelled from the spec: the fixed two-space-indentation array format of the
upstream export tool ("one opening `[`, each object spanning multiple lines
starting with two-space indent, each object's last line being a two-space
indented closing brace optionally followed by a comma, and a closing `]`"),
i.e. `json.dumps(objs, indent=2)` line structure.  Lines carry their
trailing newline.  This characterizes the normalizer's INPUTS; it is not
code of the repository. -/

/-- `n` spaces of indentation. -/
def sp (n : Nat) : PyStr := List.replicate n ' '

mutual

/-- The pretty-printed lines of one value at indentation `ind`, with `pre`
(empty, or `"key": ` for an object member) prepended on the first line and
`suf` (empty or `,`) appended on the last. -/
def prettyVal (ind : Nat) (pre suf : PyStr) : Json → List PyStr
  | .str s => [sp ind ++ pre ++ compact (Json.str s) ++ suf ++ ['\n']]
  | .num n => [sp ind ++ pre ++ compact (Json.num n) ++ suf ++ ['\n']]
  | .bool b => [sp ind ++ pre ++ compact (Json.bool b) ++ suf ++ ['\n']]
  | .null => [sp ind ++ pre ++ compact Json.null ++ suf ++ ['\n']]
  | .arr [] => [sp ind ++ pre ++ ('[' :: ']' :: suf) ++ ['\n']]
  | .arr (x :: xs) =>
      (sp ind ++ pre ++ ['[', '\n'])
        :: prettyItems (ind + 2) (x :: xs)
        ++ [sp ind ++ (']' :: suf) ++ ['\n']]
  | .obj [] => [sp ind ++ pre ++ ('\x7b' :: '\x7d' :: suf) ++ ['\n']]
  | .obj (f :: fs) =>
      (sp ind ++ pre ++ ['\x7b', '\n'])
        :: prettyFields (ind + 2) (f :: fs)
        ++ [sp ind ++ ('\x7d' :: suf) ++ ['\n']]

/-- Pretty lines of array items, each followed by `,` except the last. -/
def prettyItems (ind : Nat) : List Json → List PyStr
  | [] => []
  | x :: xs =>
      prettyVal ind [] (if xs.isEmpty then [] else [',']) x ++ prettyItems ind xs

/-- Pretty lines of object fields, `"key": ` prefixes, `,` after each but
the last. -/
def prettyFields (ind : Nat) : List (PyStr × Json) → List PyStr
  | [] => []
  | (k, v) :: fs =>
      prettyVal ind ('"' :: k ++ ['"', ':', ' ']) (if fs.isEmpty then [] else [',']) v
        ++ prettyFields ind fs

end

/-- The whole pretty-printed input file for an array of records: `[`, the
records at indentation 2, `]`. -/
def prettyArray (objs : List Json) : List PyStr :=
  ['[', '\n'] :: prettyItems 2 objs ++ [[']', '\n']]

/-- A character that may appear raw inside a string literal of the
convention: printable (no control characters, in particular no newline) and
needing no JSON escape. -/
def plainChar (c : Char) : Bool := decide (32 ≤ c.toNat) && c != '"' && c != '\\'

/-- A string of plain characters. -/
def plainStr (s : PyStr) : Bool := s.all plainChar

mutual

/-- All strings and keys of the value are plain. -/
def plainJson : Json → Bool
  | .str s => plainStr s
  | .num _ => true
  | .bool _ => true
  | .null => true
  | .arr xs => plainItems xs
  | .obj fs => plainFields fs

/-- All items plain. -/
def plainItems : List Json → Bool
  | [] => true
  | x :: xs => plainJson x && plainItems xs

/-- All keys and values plain. -/
def plainFields : List (PyStr × Json) → Bool
  | [] => true
  | (k, v) :: fs => plainStr k && plainJson v && plainFields fs

end

/-- Whether a value is not an array. -/
def notArrB : Json → Bool
  | .arr _ => false
  | _ => true

mutual

/-- No array appears directly as an item of an array anywhere in the value —
such an item's pretty-printed opening `[` starts its own line, which the
normalizer's `startswith('[')` check silently drops. -/
def arrArrFree : Json → Bool
  | .str _ => true
  | .num _ => true
  | .bool _ => true
  | .null => true
  | .arr xs => arrArrFreeItems xs
  | .obj fs => arrArrFreeFields fs

/-- Items are non-arrays and recursively array-in-array-free. -/
def arrArrFreeItems : List Json → Bool
  | [] => true
  | x :: xs => notArrB x && arrArrFree x && arrArrFreeItems xs

/-- Field values recursively array-in-array-free. -/
def arrArrFreeFields : List (PyStr × Json) → Bool
  | [] => true
  | (_, v) :: fs => arrArrFree v && arrArrFreeFields fs

end

/-- A record admissible as a top-level element of the pretty convention: a
non-empty object (so it spans multiple lines, as §4.1 requires), with plain
strings and no array directly inside an array. -/
def topObjOk : Json → Bool
  | .obj [] => false
  | .obj (f :: fs) => plainFields (f :: fs) && arrArrFreeFields (f :: fs)
  | _ => false

/-- A line the normalizer classifies as interior content: not the array
open/close marker, not an object open/close marker, longer than the blank
threshold. -/
def InteriorLine (l : PyStr) : Prop :=
  pyStartsWith ("[".data) (pyStrip l) = false ∧
  pyStartsWith ("  \x7b".data) l = false ∧
  pyStartsWith ("  \x7d".data) l = false ∧
  pyStartsWith ("]".data) l = false ∧
  5 < l.length

/-- Admissible first-line prefixes of a pretty value: nothing, or a
`"key": ` prefix (which begins with a quote). -/
def PreOk (pre : PyStr) : Prop := pre = [] ∨ ∃ t, pre = '"' :: t

/-- Admissible last-line suffixes: nothing or a comma. -/
def SufOk (suf : PyStr) : Prop := suf = [] ∨ suf = [',']

/-- The processing invariant for the lines of one pretty value nested inside
a record: each line is interior, and the stripped lines concatenate to the
compact serialization flanked by `pre` and `suf`. -/
def ValGood (ind : Nat) (v : Json) : Prop :=
  ∀ pre suf, PreOk pre → SufOk suf → (pre = [] → notArrB v = true) →
    (∀ l ∈ prettyVal ind pre suf v, InteriorLine l) ∧
      ((prettyVal ind pre suf v).map pyStrip).flatten = pre ++ compact v ++ suf

/-- The strings the normalizer writes for a list of records, given the
buffer content at the start (`[]` for the first record, `"\n"` after an
emission): each record contributes the leftover buffer followed by its
single-line serialization. -/
def emitted (log : PyStr) : List Json → List PyStr
  | [] => []
  | o :: os => (log ++ compact o) :: emitted ['\n'] os

/-- The given lines joined by single newline separators: line `i` of the
result is the `i`-th list element, and nothing follows the last line. -/
def nlJoined : List PyStr → PyStr
  | [] => []
  | s :: rest => s ++ (rest.map (fun t => '\n' :: t)).flatten

/-- A remainder string may safely follow a number literal: it is empty or
does not start with a digit, so the greedy digit scan stops exactly at the
literal's end. -/
def numSafe : PyStr → Bool
  | [] => true
  | c :: _ => !c.isDigit

mutual

/-- Parser fuel sufficient for one value: one unit per `parseVal` entry plus
the items/fields budget. -/
def pfuel : Json → Nat
  | .str _ => 1
  | .num _ => 1
  | .bool _ => 1
  | .null => 1
  | .arr xs => 1 + pfuelItems xs
  | .obj fs => 1 + pfuelFields fs

/-- Fuel for a `parseItems` run: one unit per item plus each item's fuel. -/
def pfuelItems : List Json → Nat
  | [] => 0
  | x :: xs => 1 + pfuel x + pfuelItems xs

/-- Fuel for a `parseFields` run: one unit per field plus each value's
fuel. -/
def pfuelFields : List (PyStr × Json) → Nat
  | [] => 0
  | (_, v) :: fs => 1 + pfuel v + pfuelFields fs

end

/-! ## Helper lemmas -/

theorem except_bind_ok {ε α β : Type} (a : α) (f : α → Except ε β) :
    (Except.ok a >>= f) = f a := rfl

theorem except_bind_error {ε α β : Type} (e : ε) (f : α → Except ε β) :
    ((Except.error e : Except ε α) >>= f) = Except.error e := rfl

theorem except_pure {ε α : Type} (a : α) : (pure a : Except ε α) = Except.ok a := rfl

theorem except_map_ok {ε α β : Type} (f : α → β) (a : α) :
    (Except.ok a : Except ε α).map f = Except.ok (f a) := rfl

theorem except_map_error {ε α β : Type} (f : α → β) (e : ε) :
    (Except.error e : Except ε α).map f = (Except.error e : Except ε β) := rfl

theorem splitOnP_go_ne_nil (P : Char → Bool) (l acc : List Char) :
    List.splitOnP.go P l acc ≠ [] := by
  induction l generalizing acc with
  | nil => simp [List.splitOnP.go]
  | cons a t ih =>
      simp only [List.splitOnP.go]
      split
      · simp
      · exact ih _

/-- `str.split(".")` never returns an empty list of segments. -/
theorem splitOn_ne_nil (c : Char) (s : PyStr) : List.splitOn c s ≠ [] := by
  simpa [List.splitOn, List.splitOnP] using splitOnP_go_ne_nil (· == c) s []

theorem sExclude_ne_sInclude : ¬ (sExclude = sInclude) := by decide

theorem sInclude_ne_sExclude : ¬ (sInclude = sExclude) := by decide

/-- The subscripting chain succeeds exactly where the spec's iterative
mapping descent resolves. -/
theorem chain_ok_iff (fields : List PyStr) (log v : Json) :
    chain log fields = .ok v ↔ resolvePath log fields = some v := by
  induction fields generalizing log with
  | nil => simp [chain, resolvePath]
  | cons k ks ih =>
      cases log with
      | obj fs =>
          cases h : lookupField fs k with
          | none =>
              simp [chain, resolvePath, pySubscript, h, except_bind_error]
          | some w =>
              simp [chain, resolvePath, pySubscript, h, except_bind_ok, ih]
      | str s => simp [chain, resolvePath, pySubscript, except_bind_error]
      | num n => simp [chain, resolvePath, pySubscript, except_bind_error]
      | bool b => simp [chain, resolvePath, pySubscript, except_bind_error]
      | null => simp [chain, resolvePath, pySubscript, except_bind_error]
      | arr xs => simp [chain, resolvePath, pySubscript, except_bind_error]

theorem resolvePath_none_of_chain_error {fields : List PyStr} {log : Json}
    {e : PyErr} (h : chain log fields = .error e) :
    resolvePath log fields = none := by
  cases hr : resolvePath log fields with
  | none => rfl
  | some v => rw [(chain_ok_iff fields log v).mpr hr] at h; cases h

theorem chain_error_of_resolvePath_none {fields : List PyStr} {log : Json}
    (h : resolvePath log fields = none) :
    ∃ e, chain log fields = .error e := by
  cases hc : chain log fields with
  | error e => exact ⟨e, rfl⟩
  | ok v => rw [(chain_ok_iff fields log v).mp hc] at h; cases h

/-- For paths of one to three segments, the include-mode `try` body is the
subscripting chain followed by the `== value` comparison. -/
theorem includeRaw_eq_map (log : Json) (value : PyStr) (fields : List PyStr)
    (h1 : fields ≠ []) (h3 : fields.length ≤ 3) :
    includeRaw log fields value = (chain log fields).map (fun v => pyEqStr v value) := by
  match fields with
  | [] => exact absurd rfl h1
  | [f0] =>
      cases h0 : pySubscript log f0 <;>
        simp [includeRaw, chain, h0, except_bind_ok, except_bind_error,
          except_map_ok, except_map_error, Except.map]
  | [f0, f1] =>
      cases h0 : pySubscript log f0 with
      | error e => simp [includeRaw, chain, h0, except_bind_error, Except.map]
      | ok v =>
          cases hv : pySubscript v f1 <;>
            simp [includeRaw, chain, h0, hv, except_bind_ok, except_bind_error, Except.map]
  | [f0, f1, f2] =>
      cases h0 : pySubscript log f0 with
      | error e => simp [includeRaw, chain, h0, except_bind_error, Except.map]
      | ok v =>
          cases hv : pySubscript v f1 with
          | error e => simp [includeRaw, chain, h0, hv, except_bind_ok, except_bind_error, Except.map]
          | ok w =>
              cases hw : pySubscript w f2 <;>
                simp [includeRaw, chain, h0, hv, hw, except_bind_ok, except_bind_error, Except.map]
  | f0 :: f1 :: f2 :: f3 :: tl => simp at h3

/-- For paths of one to three segments, the exclude-mode `try` body is the
subscripting chain followed by the `!= value` comparison. -/
theorem excludeRaw_eq_map (log : Json) (value : PyStr) (fields : List PyStr)
    (h1 : fields ≠ []) (h3 : fields.length ≤ 3) :
    excludeRaw log fields value = (chain log fields).map (fun v => !pyEqStr v value) := by
  match fields with
  | [] => exact absurd rfl h1
  | [f0] =>
      cases h0 : pySubscript log f0 <;>
        simp [excludeRaw, chain, h0, except_bind_ok, except_bind_error, Except.map]
  | [f0, f1] =>
      cases h0 : pySubscript log f0 with
      | error e => simp [excludeRaw, chain, h0, except_bind_error, Except.map]
      | ok v =>
          cases hv : pySubscript v f1 <;>
            simp [excludeRaw, chain, h0, hv, except_bind_ok, except_bind_error, Except.map]
  | [f0, f1, f2] =>
      cases h0 : pySubscript log f0 with
      | error e => simp [excludeRaw, chain, h0, except_bind_error, Except.map]
      | ok v =>
          cases hv : pySubscript v f1 with
          | error e => simp [excludeRaw, chain, h0, hv, except_bind_ok, except_bind_error, Except.map]
          | ok w =>
              cases hw : pySubscript w f2 <;>
                simp [excludeRaw, chain, h0, hv, hw, except_bind_ok, except_bind_error, Except.map]
  | f0 :: f1 :: f2 :: f3 :: tl => simp at h3

theorem includeTest_of_chain_ok {log v : Json} {fields : List PyStr} (value : PyStr)
    (h1 : fields ≠ []) (h3 : fields.length ≤ 3) (hc : chain log fields = .ok v) :
    includeTest log fields value = .ok (pyEqStr v value) := by
  simp [includeTest, includeRaw_eq_map log value fields h1 h3, hc, Except.map]

theorem includeTest_of_chain_keyError {log : Json} {fields : List PyStr} (value : PyStr)
    (h1 : fields ≠ []) (h3 : fields.length ≤ 3) (hc : chain log fields = .error .keyError) :
    includeTest log fields value = .ok false := by
  simp [includeTest, includeRaw_eq_map log value fields h1 h3, hc, Except.map]

theorem includeTest_of_chain_typeError {log : Json} {fields : List PyStr} (value : PyStr)
    (h1 : fields ≠ []) (h3 : fields.length ≤ 3) (hc : chain log fields = .error .typeError) :
    includeTest log fields value = .error .typeError := by
  simp [includeTest, includeRaw_eq_map log value fields h1 h3, hc, Except.map]

theorem excludeTest_of_chain_ok {log v : Json} {fields : List PyStr} (value : PyStr)
    (h1 : fields ≠ []) (h3 : fields.length ≤ 3) (hc : chain log fields = .ok v) :
    excludeTest log fields value = .ok (!pyEqStr v value) := by
  simp [excludeTest, excludeRaw_eq_map log value fields h1 h3, hc, Except.map]

theorem excludeTest_of_chain_keyError {log : Json} {fields : List PyStr} (value : PyStr)
    (h1 : fields ≠ []) (h3 : fields.length ≤ 3) (hc : chain log fields = .error .keyError) :
    excludeTest log fields value = .ok true := by
  simp [excludeTest, excludeRaw_eq_map log value fields h1 h3, hc, Except.map]

theorem excludeTest_of_chain_typeError {log : Json} {fields : List PyStr} (value : PyStr)
    (h1 : fields ≠ []) (h3 : fields.length ≤ 3) (hc : chain log fields = .error .typeError) :
    excludeTest log fields value = .error .typeError := by
  simp [excludeTest, excludeRaw_eq_map log value fields h1 h3, hc, Except.map]

/-- When the exclude-mode condition evaluates without an exception, its
increment bit is `true` exactly when the spec's exclusion criterion holds. -/
theorem excludeTest_ok_iff {log : Json} {fields : List PyStr} {value : PyStr} {b : Bool}
    (h1 : fields ≠ []) (h3 : fields.length ≤ 3)
    (hok : excludeTest log fields value = .ok b) :
    b = true ↔ Mismatch log fields value := by
  cases hc : chain log fields with
  | ok v =>
      rw [excludeTest_of_chain_ok value h1 h3 hc] at hok
      have hb : b = !pyEqStr v value := by cases hok; rfl
      have hr : resolvePath log fields = some v := (chain_ok_iff fields log v).mp hc
      have : Mismatch log fields value ↔ pyEqStr v value = false := by
        constructor
        · intro hm; exact hm v hr
        · intro hf w hw; rw [hr] at hw; cases hw; exact hf
      rw [this, hb]
      cases pyEqStr v value <;> simp
  | error e =>
      cases e with
      | keyError =>
          rw [excludeTest_of_chain_keyError value h1 h3 hc] at hok
          have hb : b = true := by cases hok; rfl
          have hm : Mismatch log fields value := by
            intro w hw
            rw [resolvePath_none_of_chain_error hc] at hw
            cases hw
          simp [hb, hm]
      | typeError =>
          rw [excludeTest_of_chain_typeError value h1 h3 hc] at hok
          cases hok

/-- One loop iteration in exclude mode: the written list is untouched and
`excludeCount` is incremented iff the condition reports a mismatch. -/
theorem filterStep_exclude (log : Json) (st : List Json × Nat) (item : PyStr × PyStr) :
    filterStep log sExclude st item =
      (excludeTest log (List.splitOn '.' item.1) (pyStrip item.2)).map
        (fun b => (st.1, if b then st.2 + 1 else st.2)) := by
  cases h : excludeTest log (List.splitOn '.' item.1) (pyStrip item.2) with
  | error e =>
      simp [filterStep, if_neg sExclude_ne_sInclude, h, Except.map,
        except_bind_ok, except_bind_error]
  | ok b =>
      cases b <;>
        simp [filterStep, if_neg sExclude_ne_sInclude, h, Except.map,
          except_bind_ok, except_bind_error]

/-- One loop iteration in include mode: the record is appended to the written
list iff the condition matches, `excludeCount` is untouched. -/
theorem filterStep_include (log : Json) (st : List Json × Nat) (item : PyStr × PyStr) :
    filterStep log sInclude st item =
      (includeTest log (List.splitOn '.' item.1) (pyStrip item.2)).map
        (fun b => (if b then st.1 ++ [log] else st.1, st.2)) := by
  cases h : includeTest log (List.splitOn '.' item.1) (pyStrip item.2) with
  | error e =>
      simp [filterStep, if_neg sInclude_ne_sExclude, h, Except.map,
        except_bind_ok, except_bind_error]
  | ok b =>
      cases b <;>
        simp [filterStep, if_neg sInclude_ne_sExclude, h, Except.map,
          except_bind_ok, except_bind_error]

theorem exclude_foldlM (log : Json) (l : List (PyStr × PyStr)) :
    ∀ (out : List Json) (c : Nat) (res : List Json × Nat),
      l.foldlM (filterStep log sExclude) (out, c) = .ok res →
      res.1 = out ∧ res.2 = c + l.countP (excludeHit log) ∧
        ∀ item ∈ l,
          excludeTest log (List.splitOn '.' item.1) (pyStrip item.2) ≠ .error .typeError := by
  induction l with
  | nil =>
      intro out c res h
      have h' : (Except.ok (out, c) : Except PyErr (List Json × Nat)) = .ok res := h
      cases h'
      simp
  | cons item tl ih =>
      intro out c res h
      rw [show ((item :: tl).foldlM (filterStep log sExclude) (out, c)
            = filterStep log sExclude (out, c) item >>= fun st =>
                tl.foldlM (filterStep log sExclude) st) from by simp [List.foldlM],
          filterStep_exclude] at h
      cases he : excludeTest log (List.splitOn '.' item.1) (pyStrip item.2) with
      | error e => rw [he] at h; simp [Except.map, except_bind_error] at h
      | ok b =>
          rw [he] at h
          simp only [Except.map, except_bind_ok] at h
          obtain ⟨h1, h2, h3⟩ := ih out (if b then c + 1 else c) res h
          have hhit : excludeHit log item = b := by
            cases b <;> simp [excludeHit, he]
          refine ⟨h1, ?_, ?_⟩
          · rw [h2, List.countP_cons, hhit]
            cases b
            · simp
            · simp only [if_pos rfl, if_true] at h2 ⊢
              omega
          · intro x hx
            rcases List.mem_cons.mp hx with rfl | hx
            · rw [he]; intro hcon; cases hcon
            · exact h3 x hx

theorem include_foldlM (log : Json) (l : List (PyStr × PyStr)) :
    ∀ (out : List Json) (c : Nat) (res : List Json × Nat),
      l.foldlM (filterStep log sInclude) (out, c) = .ok res →
      res.1 = out ++ List.replicate (l.countP (includeHit log)) log ∧ res.2 = c := by
  induction l with
  | nil =>
      intro out c res h
      have h' : (Except.ok (out, c) : Except PyErr (List Json × Nat)) = .ok res := h
      cases h'
      simp
  | cons item tl ih =>
      intro out c res h
      rw [show ((item :: tl).foldlM (filterStep log sInclude) (out, c)
            = filterStep log sInclude (out, c) item >>= fun st =>
                tl.foldlM (filterStep log sInclude) st) from by simp [List.foldlM],
          filterStep_include] at h
      cases he : includeTest log (List.splitOn '.' item.1) (pyStrip item.2) with
      | error e => rw [he] at h; simp [Except.map, except_bind_error] at h
      | ok b =>
          rw [he] at h
          simp only [Except.map, except_bind_ok] at h
          obtain ⟨h1, h2⟩ := ih (if b then out ++ [log] else out) c res h
          have hhit : includeHit log item = b := by
            cases b <;> simp [includeHit, he]
          refine ⟨?_, h2⟩
          rw [h1, List.countP_cons, hhit]
          cases b <;> simp [List.replicate_succ, Nat.add_comm, List.append_assoc]

/-- Exclude-mode forwarding rule for one record, given that the run does not
abort: the record is written iff every condition incremented the counter,
the output is the record once or nothing, and no condition raised. -/
theorem filterLogRecord_exclude_ok {log : Json} {l : List (PyStr × PyStr)}
    {out : List Json} (h : filterLogRecord log l sExclude = .ok out) :
    (out = [log] ↔ l.countP (excludeHit log) = l.length) ∧
      (out = [log] ∨ out = []) ∧
      ∀ item ∈ l,
        excludeTest log (List.splitOn '.' item.1) (pyStrip item.2) ≠ .error .typeError := by
  unfold filterLogRecord at h
  cases hf : l.foldlM (filterStep log sExclude) ([], 0) with
  | error e => rw [hf] at h; simp [except_bind_error] at h
  | ok st =>
      rw [hf] at h
      obtain ⟨h1, h2, h3⟩ := exclude_foldlM log l [] 0 st hf
      simp only [except_bind_ok, if_pos rfl] at h
      by_cases hc : st.2 = l.length
      · rw [if_pos hc] at h
        have hout : out = [log] := by cases h; rw [h1]; rfl
        refine ⟨?_, Or.inl hout, h3⟩
        simp only [hout, true_iff]
        rw [← hc, h2]; omega
      · rw [if_neg hc] at h
        have hout : out = [] := by cases h; rw [h1]
        subst hout
        refine ⟨?_, Or.inr rfl, h3⟩
        constructor
        · intro hcon; cases hcon
        · intro hcount
          exact absurd (by rw [h2]; omega) hc

/-- Include-mode forwarding rule for one record, given that the run does not
abort: the record is written once per matching condition. -/
theorem filterLogRecord_include_ok {log : Json} {l : List (PyStr × PyStr)}
    {out : List Json} (h : filterLogRecord log l sInclude = .ok out) :
    out = List.replicate (l.countP (includeHit log)) log := by
  unfold filterLogRecord at h
  cases hf : l.foldlM (filterStep log sInclude) ([], 0) with
  | error e => rw [hf] at h; simp [except_bind_error] at h
  | ok st =>
      rw [hf] at h
      obtain ⟨h1, h2⟩ := include_foldlM log l [] 0 st hf
      simp only [except_bind_ok] at h
      rw [if_neg sInclude_ne_sExclude] at h
      cases h
      rw [h1]; rfl

/-- A single-condition include run forwards the record iff the condition
matches. -/
theorem filterLogRecord_include_single {log : Json} {p rawv : PyStr} {b : Bool}
    (hb : includeTest log (List.splitOn '.' p) (pyStrip rawv) = .ok b) :
    filterLogRecord log [(p, rawv)] sInclude = .ok (if b then [log] else []) := by
  unfold filterLogRecord
  rw [show (([(p, rawv)] : List (PyStr × PyStr)).foldlM (filterStep log sInclude) ([], 0)
        = filterStep log sInclude ([], 0) (p, rawv) >>= fun st =>
            ([] : List (PyStr × PyStr)).foldlM (filterStep log sInclude) st) from by
      simp [List.foldlM], filterStep_include, hb]
  cases b <;> simp [Except.map, except_bind_ok, List.foldlM, if_neg sInclude_ne_sExclude, except_pure]

theorem filterLogRecord_include_single_error {log : Json} {p rawv : PyStr} {e : PyErr}
    (hb : includeTest log (List.splitOn '.' p) (pyStrip rawv) = .error e) :
    filterLogRecord log [(p, rawv)] sInclude = .error e := by
  unfold filterLogRecord
  rw [show (([(p, rawv)] : List (PyStr × PyStr)).foldlM (filterStep log sInclude) ([], 0)
        = filterStep log sInclude ([], 0) (p, rawv) >>= fun st =>
            ([] : List (PyStr × PyStr)).foldlM (filterStep log sInclude) st) from by
      simp [List.foldlM], filterStep_include, hb]
  simp [Except.map, except_bind_error]

/-- A single-condition exclude run forwards the record iff the condition
reports a mismatch. -/
theorem filterLogRecord_exclude_single {log : Json} {p rawv : PyStr} {b : Bool}
    (hb : excludeTest log (List.splitOn '.' p) (pyStrip rawv) = .ok b) :
    filterLogRecord log [(p, rawv)] sExclude = .ok (if b then [log] else []) := by
  unfold filterLogRecord
  rw [show (([(p, rawv)] : List (PyStr × PyStr)).foldlM (filterStep log sExclude) ([], 0)
        = filterStep log sExclude ([], 0) (p, rawv) >>= fun st =>
            ([] : List (PyStr × PyStr)).foldlM (filterStep log sExclude) st) from by
      simp [List.foldlM], filterStep_exclude, hb]
  cases b <;> simp [Except.map, except_bind_ok, List.foldlM, except_bind_error, except_pure]

theorem filterLogRecord_exclude_single_error {log : Json} {p rawv : PyStr} {e : PyErr}
    (hb : excludeTest log (List.splitOn '.' p) (pyStrip rawv) = .error e) :
    filterLogRecord log [(p, rawv)] sExclude = .error e := by
  unfold filterLogRecord
  rw [show (([(p, rawv)] : List (PyStr × PyStr)).foldlM (filterStep log sExclude) ([], 0)
        = filterStep log sExclude ([], 0) (p, rawv) >>= fun st =>
            ([] : List (PyStr × PyStr)).foldlM (filterStep log sExclude) st) from by
      simp [List.foldlM], filterStep_exclude, hb]
  simp [Except.map, except_bind_error]

/-- A depth-1 include condition on an object record evaluates without
exception to the `depth1Match` bit. -/
theorem includeTest_d1 (fs : List (PyStr × Json)) (f0 value : PyStr) :
    includeTest (Json.obj fs) [f0] value = .ok (depth1Match (Json.obj fs) f0 value) := by
  cases h : lookupField fs f0 <;>
    simp [includeTest, includeRaw, pySubscript, h, except_bind_ok, except_bind_error,
      depth1Match]

/-- A depth-1 exclude condition on an object record evaluates without
exception to the negated `depth1Match` bit. -/
theorem excludeTest_d1 (fs : List (PyStr × Json)) (f0 value : PyStr) :
    excludeTest (Json.obj fs) [f0] value = .ok (!depth1Match (Json.obj fs) f0 value) := by
  cases h : lookupField fs f0 <;>
    simp [excludeTest, excludeRaw, pySubscript, h, except_bind_ok, except_bind_error,
      depth1Match]

/-- When every record of the stream is processed without an exception, the
run output is the concatenation of the per-record emissions. -/
theorem filterLog_eq_flatten (fl : List (PyStr × PyStr)) (m : PyStr)
    (g : Json → List Json) :
    ∀ (records : List Json), (∀ r ∈ records, filterLogRecord r fl m = .ok (g r)) →
      filterLog records fl m = .ok ((records.map g).flatten) := by
  have go : ∀ (records : List Json), (∀ r ∈ records, filterLogRecord r fl m = .ok (g r)) →
      ∀ (acc : List Json),
        records.foldlM
          (fun acc log => do
            let out ← filterLogRecord log fl m
            pure (acc ++ out)) acc = .ok (acc ++ (records.map g).flatten) := by
    intro records
    induction records with
    | nil => intro _ acc; simp [List.foldlM, except_pure]
    | cons r rs ih =>
        intro h acc
        simp only [List.foldlM]
        rw [h r (List.mem_cons_self r rs), except_bind_ok, except_pure, except_bind_ok]
        rw [ih (fun x hx => h x (List.mem_cons_of_mem r hx)) (acc ++ g r)]
        simp [List.append_assoc]
  intro records h
  exact go records h []

/-- A record whose processing raises an exception aborts the whole run when
all records before it are processed without one. -/
theorem filterLog_abort (fl : List (PyStr × PyStr)) (m : PyStr) (r : Json)
    (post : List Json) (e : PyErr) (hr : filterLogRecord r fl m = .error e) :
    ∀ (pre : List Json), (∀ x ∈ pre, (filterLogRecord x fl m).isOk = true) →
      filterLog (pre ++ r :: post) fl m = .error e := by
  have go : ∀ (pre : List Json), (∀ x ∈ pre, (filterLogRecord x fl m).isOk = true) →
      ∀ (acc : List Json),
        (pre ++ r :: post).foldlM
          (fun acc log => do
            let out ← filterLogRecord log fl m
            pure (acc ++ out)) acc = .error e := by
    intro pre
    induction pre with
    | nil =>
        intro _ acc
        simp only [List.nil_append, List.foldlM]
        rw [hr, except_bind_error, except_bind_error]
    | cons x pre ih =>
        intro h acc
        simp only [List.cons_append, List.foldlM]
        cases hx : filterLogRecord x fl m with
        | error e' =>
            have := h x (List.mem_cons_self x pre)
            rw [hx] at this
            cases this
        | ok o =>
            rw [except_bind_ok, except_pure, except_bind_ok]
            exact ih (fun y hy => h y (List.mem_cons_of_mem x hy)) (acc ++ o)
  intro pre h
  exact go pre h []

/-- Per-record filtering with one condition, where every record is an object,
equals a `List.filter` by the condition bit; used for the include/exclude
complementarity statements. -/
theorem filter_flatten_ite (p : Json → Bool) :
    ∀ (records : List Json),
      ((records.map (fun r => if p r then [r] else [])).flatten) = records.filter p := by
  intro records
  induction records with
  | nil => rfl
  | cons r rs ih =>
      cases h : p r <;> simp [List.filter_cons, h, ih]

theorem includeTest_ne_keyError (log : Json) (fields : List PyStr) (value : PyStr) :
    includeTest log fields value ≠ .error .keyError := by
  unfold includeTest
  cases h : includeRaw log fields value with
  | ok b => simp
  | error e => cases e <;> simp

theorem excludeTest_ne_keyError (log : Json) (fields : List PyStr) (value : PyStr) :
    excludeTest log fields value ≠ .error .keyError := by
  unfold excludeTest
  cases h : excludeRaw log fields value with
  | ok b => simp
  | error e => cases e <;> simp

/-! ## Claim theorems -/

/--
C2 (amended).  Exclude-mode unanimity holds for filter lists whose field
paths have at most three segments, on records whose processing raises no
exception: `filterLog` forwards the record iff every condition either fails
to resolve or resolves to a value differing (as a Python `==` comparison with
the expected string) — equivalently the per-record counter reaches the number
of conditions; the output for the record is the record once or nothing.  And
for a single depth-1 condition over object records, `include` selects exactly
the matching records and `exclude` exactly the complement, partitioning the
record set.  (The original claim, quantifying over arbitrary conditions, is
refuted by `exclude_unanimity_counterexample`: a five-segment path never
increments the counter even though its resolution fails.)
-/
theorem exclude_unanimity :
    (∀ (log : Json) (l : List (PyStr × PyStr)) (out : List Json),
        (∀ item ∈ l, (List.splitOn '.' item.1).length ≤ 3) →
        filterLogRecord log l sExclude = .ok out →
        ((out = [log] ↔
            ∀ item ∈ l, Mismatch log (List.splitOn '.' item.1) (pyStrip item.2)) ∧
          (out = [log] ∨ out = []))) ∧
    (∀ (records : List Json) (p f0 rawv : PyStr),
        List.splitOn '.' p = [f0] →
        (∀ r ∈ records, isObjB r = true) →
        filterLog records [(p, rawv)] sInclude
            = .ok (records.filter (fun r => depth1Match r f0 (pyStrip rawv))) ∧
        filterLog records [(p, rawv)] sExclude
            = .ok (records.filter (fun r => !depth1Match r f0 (pyStrip rawv)))) := by
  constructor
  · intro log l out hdep hok
    obtain ⟨hiff, hor, hne⟩ := filterLogRecord_exclude_ok hok
    refine ⟨?_, hor⟩
    rw [hiff, List.countP_eq_length]
    constructor
    · intro hall item hitem
      have h1 : List.splitOn '.' item.1 ≠ [] := splitOn_ne_nil _ _
      have h3 := hdep item hitem
      cases he : excludeTest log (List.splitOn '.' item.1) (pyStrip item.2) with
      | error e =>
          cases e with
          | keyError => exact absurd he (excludeTest_ne_keyError _ _ _)
          | typeError => exact absurd he (hne item hitem)
      | ok b =>
          have hbit : excludeHit log item = b := by
            cases b <;> simp [excludeHit, he]
          have := hall item hitem
          rw [hbit] at this
          exact (excludeTest_ok_iff h1 h3 he).mp this
    · intro hall item hitem
      have h1 : List.splitOn '.' item.1 ≠ [] := splitOn_ne_nil _ _
      have h3 := hdep item hitem
      cases he : excludeTest log (List.splitOn '.' item.1) (pyStrip item.2) with
      | error e =>
          cases e with
          | keyError => exact absurd he (excludeTest_ne_keyError _ _ _)
          | typeError => exact absurd he (hne item hitem)
      | ok b =>
          have hbit : excludeHit log item = b := by
            cases b <;> simp [excludeHit, he]
          rw [hbit]
          exact (excludeTest_ok_iff h1 h3 he).mpr (hall item hitem)
  · intro records p f0 rawv hsplit hobj
    constructor
    · rw [filterLog_eq_flatten [(p, rawv)] sInclude
          (fun r => if depth1Match r f0 (pyStrip rawv) then [r] else []) records ?hinc,
        filter_flatten_ite]
      case hinc =>
        intro r hr
        cases r with
        | obj fs =>
            exact filterLogRecord_include_single
              (by rw [hsplit]; exact includeTest_d1 fs f0 (pyStrip rawv))
        | str s => exact absurd (hobj _ hr) (by simp [isObjB])
        | num n => exact absurd (hobj _ hr) (by simp [isObjB])
        | bool b => exact absurd (hobj _ hr) (by simp [isObjB])
        | null => exact absurd (hobj _ hr) (by simp [isObjB])
        | arr xs => exact absurd (hobj _ hr) (by simp [isObjB])
    · rw [filterLog_eq_flatten [(p, rawv)] sExclude
          (fun r => if !depth1Match r f0 (pyStrip rawv) then [r] else []) records ?hexc,
        filter_flatten_ite]
      case hexc =>
        intro r hr
        cases r with
        | obj fs =>
            exact filterLogRecord_exclude_single
              (by rw [hsplit]; exact excludeTest_d1 fs f0 (pyStrip rawv))
        | str s => exact absurd (hobj _ hr) (by simp [isObjB])
        | num n => exact absurd (hobj _ hr) (by simp [isObjB])
        | bool b => exact absurd (hobj _ hr) (by simp [isObjB])
        | null => exact absurd (hobj _ hr) (by simp [isObjB])
        | arr xs => exact absurd (hobj _ hr) (by simp [isObjB])

/--
C2 counterexample to the original claim: in exclude mode with the single
condition `a.b.c.d.e=x`, path resolution fails on the record `{}`, so the
claim's unanimity criterion ("every condition fails to resolve or differs")
holds and the record should be written; but the five-segment path takes no
branch of the `elif` chain, the counter stays `0 ≠ 1`, and the record is not
written.
-/
theorem exclude_unanimity_counterexample :
    resolvePath (Json.obj []) (List.splitOn '.' ("a.b.c.d.e".data)) = none ∧
    filterLogRecord (Json.obj []) [("a.b.c.d.e".data, "x".data)] sExclude = .ok [] ∧
    filterLog [Json.obj []] [("a.b.c.d.e".data, "x".data)] sExclude = .ok [] :=
  ⟨rfl, rfl, rfl⟩

/-- Witness: the amended C2 theorem applied to the record `{"a": "b"}` with
condition `a=b` (no write in exclude mode) and to the two-record stream
`{"a": "b"}`, `{"a": "c"}` with the same condition. -/
theorem exclude_unanimity_witness :
    ((([] : List Json) = [exRecAB] ↔
        ∀ item ∈ [(("a".data : PyStr), ("b".data : PyStr))],
          Mismatch exRecAB (List.splitOn '.' item.1) (pyStrip item.2)) ∧
      (([] : List Json) = [exRecAB] ∨ ([] : List Json) = [])) ∧
    (filterLog [exRecAB, exRecAC] [("a".data, "b".data)] sInclude
        = .ok ([exRecAB, exRecAC].filter
            (fun r => depth1Match r ("a".data) (pyStrip ("b".data)))) ∧
      filterLog [exRecAB, exRecAC] [("a".data, "b".data)] sExclude
        = .ok ([exRecAB, exRecAC].filter
            (fun r => !depth1Match r ("a".data) (pyStrip ("b".data))))) :=
  ⟨exclude_unanimity.1 exRecAB [("a".data, "b".data)] [] (by decide) rfl,
   exclude_unanimity.2 [exRecAB, exRecAC] ("a".data) ("a".data) ("b".data) rfl (by decide)⟩

/--
C3 (amended).  For a field path of one to three segments that resolves in the
record by iterative mapping descent, the condition matches exactly when the
resolved value equals (Python `==`) the expected string: in include mode the
record is forwarded iff they are equal, in exclude mode the counter is not
incremented iff they are equal, so a single such condition forwards the
record iff they differ.  (The original claim, for depths one through six, is
refuted by `depth_resolution_counterexample`: at depth 5 a resolving,
equal-valued path forwards nothing.)
-/
theorem depth_resolution :
    ∀ (log v : Json) (p rawv : PyStr) (fields : List PyStr),
      List.splitOn '.' p = fields → fields.length ≤ 3 →
      resolvePath log fields = some v →
      filterLogRecord log [(p, rawv)] sInclude
          = .ok (if pyEqStr v (pyStrip rawv) then [log] else []) ∧
      filterLogRecord log [(p, rawv)] sExclude
          = .ok (if pyEqStr v (pyStrip rawv) then [] else [log]) := by
  intro log v p rawv fields hsplit h3 hres
  have h1 : fields ≠ [] := by rw [← hsplit]; exact splitOn_ne_nil _ _
  have hc : chain log fields = .ok v := (chain_ok_iff _ _ _).mpr hres
  constructor
  · exact filterLogRecord_include_single
      (by rw [hsplit]; exact includeTest_of_chain_ok (pyStrip rawv) h1 h3 hc)
  · rw [filterLogRecord_exclude_single
      (by rw [hsplit]; exact excludeTest_of_chain_ok (pyStrip rawv) h1 h3 hc)]
    cases pyEqStr v (pyStrip rawv) <;> simp

/--
C3 counterexample to the original claim at depth 5: in the record
`{"a": {"b": {"c": {"d": {"e": "v"}}}}}` the path `a.b.c.d.e` resolves to
`"v"`, equal to the expected value, yet the include-mode run forwards
nothing, because the depth-5 branch of the source is dead code (its guard is
a repeated `len(fields) == 2`).
-/
theorem depth_resolution_counterexample :
    resolvePath exRecDeep (List.splitOn '.' ("a.b.c.d.e".data))
        = some (Json.str ("v".data)) ∧
    pyEqStr (Json.str ("v".data)) (pyStrip ("v".data)) = true ∧
    filterLogRecord exRecDeep [("a.b.c.d.e".data, "v".data)] sInclude = .ok [] ∧
    filterLogRecord exRecDeep [("a.b.c.d.e".data, "v".data)] sExclude = .ok [] :=
  ⟨rfl, rfl, rfl, rfl⟩

/-- Witness: the amended C3 theorem applied to the record
`{"resource": {"type": "gce_instance"}}` and the depth-2 condition
`resource.type=gce_instance`. -/
theorem depth_resolution_witness :
    filterLogRecord exRecResource [("resource.type".data, "gce_instance".data)] sInclude
        = .ok (if pyEqStr (Json.str ("gce_instance".data))
                  (pyStrip ("gce_instance".data)) then [exRecResource] else []) ∧
    filterLogRecord exRecResource [("resource.type".data, "gce_instance".data)] sExclude
        = .ok (if pyEqStr (Json.str ("gce_instance".data))
                  (pyStrip ("gce_instance".data)) then [] else [exRecResource]) :=
  depth_resolution exRecResource (Json.str ("gce_instance".data))
    ("resource.type".data) ("gce_instance".data)
    ["resource".data, "type".data] rfl (by decide) rfl

/--
C7 (amended).  The filter comparison is Python `==` between the resolved
value and the expected string, with no stringification: for a depth-1
condition on an object record whose key resolves to `v`, the record is
forwarded iff `v` is literally the string `pyStrip rawv`; in particular a
number-valued or boolean-valued field never matches any expected value.
(The original claim, that the resolved value's string form is compared, is
refuted by `string_comparison_counterexample`.)
-/
theorem string_comparison :
    ∀ (fs : List (PyStr × Json)) (p f0 rawv : PyStr) (v : Json),
      List.splitOn '.' p = [f0] →
      lookupField fs f0 = some v →
      (filterLogRecord (Json.obj fs) [(p, rawv)] sInclude
          = .ok (if pyEqStr v (pyStrip rawv) then [Json.obj fs] else [])) ∧
      (pyEqStr v (pyStrip rawv) = true ↔ v = Json.str (pyStrip rawv)) ∧
      (∀ n : Int, v = Json.num n →
        filterLogRecord (Json.obj fs) [(p, rawv)] sInclude = .ok []) ∧
      (∀ b : Bool, v = Json.bool b →
        filterLogRecord (Json.obj fs) [(p, rawv)] sInclude = .ok []) := by
  intro fs p f0 rawv v hsplit hlook
  have hi : includeTest (Json.obj fs) [f0] (pyStrip rawv)
      = .ok (pyEqStr v (pyStrip rawv)) := by
    rw [includeTest_d1]
    simp [depth1Match, hlook]
  have hmain := filterLogRecord_include_single (by rw [hsplit]; exact hi)
  refine ⟨hmain, ?_, ?_, ?_⟩
  · cases v <;> simp [pyEqStr]
  · intro n hv
    rw [hmain, hv]
    simp [pyEqStr]
  · intro b hv
    rw [hmain, hv]
    simp [pyEqStr]

/--
C7 counterexample to the original claim: the record `{"a": 5}` has
`str(log["a"]) == "5"`, and `{"a": true}` has `str(log["a"]) == "True"`, so
under string-form comparison the conditions `a=5` and `a=True` would forward
them; the source compares the raw values with `==` and forwards nothing.
-/
theorem string_comparison_counterexample :
    pyStrOf (Json.num 5) = "5".data ∧
    filterLogRecord (Json.obj [("a".data, Json.num 5)])
        [("a".data, "5".data)] sInclude = .ok [] ∧
    pyStrOf (Json.bool true) = "True".data ∧
    filterLogRecord (Json.obj [("a".data, Json.bool true)])
        [("a".data, "True".data)] sInclude = .ok [] :=
  ⟨rfl, rfl, rfl, rfl⟩

/-- Witness: the amended C7 theorem applied to the record `{"a": "b"}` and
the condition `a=b`. -/
theorem string_comparison_witness :
    (filterLogRecord (Json.obj [("a".data, Json.str ("b".data))])
        [("a".data, "b".data)] sInclude
        = .ok (if pyEqStr (Json.str ("b".data)) (pyStrip ("b".data))
            then [Json.obj [("a".data, Json.str ("b".data))]] else [])) ∧
    (pyEqStr (Json.str ("b".data)) (pyStrip ("b".data)) = true ↔
      Json.str ("b".data) = Json.str (pyStrip ("b".data))) ∧
    (∀ n : Int, Json.str ("b".data) = Json.num n →
      filterLogRecord (Json.obj [("a".data, Json.str ("b".data))])
        [("a".data, "b".data)] sInclude = .ok []) ∧
    (∀ b : Bool, Json.str ("b".data) = Json.bool b →
      filterLogRecord (Json.obj [("a".data, Json.str ("b".data))])
        [("a".data, "b".data)] sInclude = .ok []) :=
  string_comparison [("a".data, Json.str ("b".data))] ("a".data) ("a".data)
    ("b".data) (Json.str ("b".data)) rfl rfl

/--
C8.  In include mode every condition is evaluated independently and the
record is written immediately on each match: when the run does not abort, the
output for a record is exactly one copy of the record per matching condition,
in condition order — a record matching `k` conditions is written `k` times,
duplicates preserved.
-/
theorem include_emission_per_match :
    ∀ (log : Json) (l : List (PyStr × PyStr)) (out : List Json),
      filterLogRecord log l sInclude = .ok out →
      out = List.replicate (l.countP (includeHit log)) log := by
  intro log l out h
  exact filterLogRecord_include_ok h

/-- Witness: the record `{"a": "b"}` against the three conditions `a=b`,
`x=y`, `a=b` matches the first and the third and is emitted exactly twice. -/
theorem include_emission_per_match_witness :
    ([exRecAB, exRecAB] : List Json)
      = List.replicate
          (List.countP (includeHit exRecAB)
            [("a".data, "b".data), ("x".data, "y".data), ("a".data, "b".data)])
          exRecAB :=
  include_emission_per_match exRecAB
    [("a".data, "b".data), ("x".data, "y".data), ("a".data, "b".data)]
    [exRecAB, exRecAB] rfl

/--
C10 (implicit).  For every object record whose first path segment key is
present, a four-segment filter condition makes `filterLog` raise an uncaught
`TypeError` in both modes — `log[fields[0]]` succeeds, then
`fields[1][fields[2]]` subscripts a string with a string, and only `KeyError`
is handled — and the whole run aborts with that error instead of skipping
the record, losing all later records.
-/
theorem depth4_typeError_abort :
    ∀ (fs : List (PyStr × Json)) (p f0 f1 f2 f3 rawv : PyStr) (w : Json),
      List.splitOn '.' p = [f0, f1, f2, f3] →
      lookupField fs f0 = some w →
      (filterLogRecord (Json.obj fs) [(p, rawv)] sInclude = .error .typeError ∧
        filterLogRecord (Json.obj fs) [(p, rawv)] sExclude = .error .typeError) ∧
      (∀ (m : PyStr), (m = sInclude ∨ m = sExclude) →
        ∀ (pre post : List Json),
          (∀ x ∈ pre, (filterLogRecord x [(p, rawv)] m).isOk = true) →
          filterLog (pre ++ Json.obj fs :: post) [(p, rawv)] m
            = .error .typeError) := by
  intro fs p f0 f1 f2 f3 rawv w hsplit hlook
  have hi : includeTest (Json.obj fs) (List.splitOn '.' p) (pyStrip rawv)
      = .error .typeError := by
    rw [hsplit]
    simp [includeTest, includeRaw, pySubscript, hlook, except_bind_ok]
  have he : excludeTest (Json.obj fs) (List.splitOn '.' p) (pyStrip rawv)
      = .error .typeError := by
    rw [hsplit]
    simp [excludeTest, excludeRaw, pySubscript, hlook, except_bind_ok]
  have h1 := filterLogRecord_include_single_error hi
  have h2 := filterLogRecord_exclude_single_error he
  refine ⟨⟨h1, h2⟩, ?_⟩
  intro m hm pre post hpre
  cases hm with
  | inl h => subst h; exact filterLog_abort _ _ _ post _ h1 pre hpre
  | inr h => subst h; exact filterLog_abort _ _ _ post _ h2 pre hpre

/-- Witness: the record `{"protoPayload": {}}` against the four-segment
condition `protoPayload.a.b.c=x` aborts the run in both modes; with a
preceding record lacking the first key, the whole stream still aborts. -/
theorem depth4_typeError_abort_witness :
    ((filterLogRecord (Json.obj [("protoPayload".data, Json.obj [])])
        [("protoPayload.a.b.c".data, "x".data)] sInclude = .error .typeError ∧
      filterLogRecord (Json.obj [("protoPayload".data, Json.obj [])])
        [("protoPayload.a.b.c".data, "x".data)] sExclude = .error .typeError) ∧
      (∀ (m : PyStr), (m = sInclude ∨ m = sExclude) →
        ∀ (pre post : List Json),
          (∀ x ∈ pre,
            (filterLogRecord x [("protoPayload.a.b.c".data, "x".data)] m).isOk = true) →
          filterLog (pre ++ Json.obj [("protoPayload".data, Json.obj [])] :: post)
            [("protoPayload.a.b.c".data, "x".data)] m = .error .typeError)) :=
  depth4_typeError_abort [("protoPayload".data, Json.obj [])]
    ("protoPayload.a.b.c".data) ("protoPayload".data) ("a".data) ("b".data)
    ("c".data) ("x".data) (Json.obj []) rfl rfl


/-- A clean line (object record with a parseable `timestamp`) is selected by
the shared loop body exactly when its code-parsed timestamp lies in the
window. -/
theorem windowLine_of_recordTime (startT endT : Int) {line : PyStr} {log : Json}
    {t : Int} (h : recordTime line = some (log, t)) :
    windowLine startT endT line
      = .ok (if startT ≤ t ∧ t ≤ endT then some log else none) := by
  unfold recordTime at h
  cases hd : decodeLine line with
  | none => rw [hd] at h; cases h
  | some j =>
      cases j with
      | obj fs =>
          simp only [hd] at h
          cases hl : lookupField fs ("timestamp".data) with
          | none => simp only [hl] at h; cases h
          | some v =>
              cases v with
              | str s =>
                  simp only [hl] at h
                  cases hp : parseTimestamp19 s with
                  | none => simp only [hp] at h; cases h
                  | some u =>
                      simp only [hp] at h
                      cases h
                      unfold windowLine
                      simp only [hd, hl, hp, except_bind_ok, except_pure]
              | num n => simp only [hl] at h; cases h
              | bool b => simp only [hl] at h; cases h
              | null => simp only [hl] at h; cases h
              | arr xs => simp only [hl] at h; cases h
              | obj gs => simp only [hl] at h; cases h
      | str s => simp only [hd] at h; cases h
      | num n => simp only [hd] at h; cases h
      | bool b => simp only [hd] at h; cases h
      | null => simp only [hd] at h; cases h
      | arr xs => simp only [hd] at h; cases h

/--
C5 (amended).  Both `timeslice` and `timeframe` run the same selection loop
(`windowFilter`), and for a stream of clean lines it forwards exactly the
records whose timestamp `t`, parsed from the FIRST 19 characters of the
`timestamp` field (whole-second resolution), satisfies `start ≤ t ≤ end` —
inclusive on both ends, in input order.  A record whose truncated timestamp
equals `start` or `end` exactly is selected and one a full second outside is
excluded; but a record whose actual timestamp is a fraction of a second past
`end` is truncated back onto the bound and still selected
(`window_inclusivity_counterexample`), refuting the claim's
"a microsecond outside is excluded".
-/
theorem window_inclusivity :
    ∀ (startT endT : Int) (lines : List PyStr),
      (∀ l ∈ lines, (recordTime l).isSome = true) →
      windowFilter startT endT lines
        = .ok (lines.filterMap (fun l =>
            match recordTime l with
            | some r => if startT ≤ r.2 ∧ r.2 ≤ endT then some r.1 else none
            | none => none)) := by
  intro startT endT
  have go : ∀ (lines : List PyStr), (∀ l ∈ lines, (recordTime l).isSome = true) →
      ∀ (acc : List Json),
        lines.foldlM
          (fun acc line => do
            let r ← windowLine startT endT line
            pure (match r with
                  | some log => acc ++ [log]
                  | none => acc)) acc
          = .ok (acc ++ lines.filterMap (fun l =>
              match recordTime l with
              | some r => if startT ≤ r.2 ∧ r.2 ≤ endT then some r.1 else none
              | none => none)) := by
    intro lines
    induction lines with
    | nil => intro _ acc; simp [List.foldlM, except_pure]
    | cons l ls ih =>
        intro h acc
        simp only [List.foldlM]
        have hsome := h l (List.mem_cons_self l ls)
        cases hrt : recordTime l with
        | none => rw [hrt] at hsome; cases hsome
        | some r =>
            rw [windowLine_of_recordTime startT endT (by rw [hrt]),
              except_bind_ok, except_pure, except_bind_ok]
            rw [ih (fun x hx => h x (List.mem_cons_of_mem l hx))]
            by_cases hin : startT ≤ r.2 ∧ r.2 ≤ endT
            · simp [List.filterMap_cons, hrt, if_pos hin, List.append_assoc]
            · simp [List.filterMap_cons, hrt, if_neg hin]
  intro lines h
  exact go lines h []

/--
C5 counterexample to the original claim: with the window ending at
2019-07-22 20:05:01, a record whose timestamp field reads
`2019-07-22T20:05:01.500000Z` — an actual time 500000 microseconds PAST the
end bound — is still written, because only the first 19 characters of the
field are parsed.
-/
theorem window_inclusivity_counterexample :
    specTimestampMicros ("2019-07-22T20:05:01.500000Z".data)
        = some (toMicros 2019 7 22 20 5 1 500000) ∧
    toMicros 2019 7 22 20 5 1 0 < toMicros 2019 7 22 20 5 1 500000 ∧
    windowFilter (toMicros 2019 7 22 20 4 1 0) (toMicros 2019 7 22 20 5 1 0)
        ["\x7b\"timestamp\": \"2019-07-22T20:05:01.500000Z\"\x7d".data]
      = .ok [Json.obj [("timestamp".data,
          Json.str ("2019-07-22T20:05:01.500000Z".data))]] :=
  ⟨rfl, by decide, rfl⟩

/-- Witness: the amended C5 theorem on four records timestamped exactly at
the start bound, exactly at the end bound, one second before the start and
one second after the end of the window 20:04:01..20:05:01; the two boundary
records are selected, the two one-second-outside records excluded. -/
theorem window_inclusivity_witness :
    windowFilter (toMicros 2019 7 22 20 4 1 0) (toMicros 2019 7 22 20 5 1 0)
        ["\x7b\"timestamp\": \"2019-07-22T20:04:01Z\"\x7d".data,
         "\x7b\"timestamp\": \"2019-07-22T20:05:01Z\"\x7d".data,
         "\x7b\"timestamp\": \"2019-07-22T20:04:00Z\"\x7d".data,
         "\x7b\"timestamp\": \"2019-07-22T20:05:02Z\"\x7d".data]
      = .ok (["\x7b\"timestamp\": \"2019-07-22T20:04:01Z\"\x7d".data,
         "\x7b\"timestamp\": \"2019-07-22T20:05:01Z\"\x7d".data,
         "\x7b\"timestamp\": \"2019-07-22T20:04:00Z\"\x7d".data,
         "\x7b\"timestamp\": \"2019-07-22T20:05:02Z\"\x7d".data].filterMap (fun l =>
            match recordTime l with
            | some r =>
                if toMicros 2019 7 22 20 4 1 0 ≤ r.2 ∧ r.2 ≤ toMicros 2019 7 22 20 5 1 0
                then some r.1 else none
            | none => none)) ∧
    windowFilter (toMicros 2019 7 22 20 4 1 0) (toMicros 2019 7 22 20 5 1 0)
        ["\x7b\"timestamp\": \"2019-07-22T20:04:01Z\"\x7d".data,
         "\x7b\"timestamp\": \"2019-07-22T20:05:01Z\"\x7d".data,
         "\x7b\"timestamp\": \"2019-07-22T20:04:00Z\"\x7d".data,
         "\x7b\"timestamp\": \"2019-07-22T20:05:02Z\"\x7d".data]
      = .ok [Json.obj [("timestamp".data, Json.str ("2019-07-22T20:04:01Z".data))],
             Json.obj [("timestamp".data, Json.str ("2019-07-22T20:05:01Z".data))]] :=
  ⟨window_inclusivity (toMicros 2019 7 22 20 4 1 0) (toMicros 2019 7 22 20 5 1 0)
      ["\x7b\"timestamp\": \"2019-07-22T20:04:01Z\"\x7d".data,
       "\x7b\"timestamp\": \"2019-07-22T20:05:01Z\"\x7d".data,
       "\x7b\"timestamp\": \"2019-07-22T20:04:00Z\"\x7d".data,
       "\x7b\"timestamp\": \"2019-07-22T20:05:02Z\"\x7d".data] (by decide),
   rfl⟩

/--
C4 (amended).  Per-record errors in the temporal extractors are NOT
recovered: a line on which the shared `timeslice`/`timeframe` loop raises —
malformed JSON (`json.JSONDecodeError`), missing `timestamp` field
(`KeyError`), non-string or unparseable timestamp (`TypeError`/`ValueError`)
— aborts the whole run at that line, because the loop has no `try/except`:
earlier lines' output decisions are lost and later lines are never
processed, instead of the record being skipped.
(`per_record_errors_abort_counterexample` shows the three error classes at
concrete inputs, through `timeslice` and `timeframe`.)
-/
theorem per_record_errors_abort :
    ∀ (startT endT : Int) (bad : PyStr) (post : List PyStr) (e : RunErr),
      windowLine startT endT bad = .error e →
      ∀ (pre : List PyStr), (∀ l ∈ pre, (windowLine startT endT l).isOk = true) →
        windowFilter startT endT (pre ++ bad :: post) = .error e := by
  intro startT endT bad post e hbad
  have go : ∀ (pre : List PyStr),
      (∀ l ∈ pre, (windowLine startT endT l).isOk = true) →
      ∀ (acc : List Json),
        (pre ++ bad :: post).foldlM
          (fun acc line => do
            let r ← windowLine startT endT line
            pure (match r with
                  | some log => acc ++ [log]
                  | none => acc)) acc = .error e := by
    intro pre
    induction pre with
    | nil =>
        intro _ acc
        simp only [List.nil_append, List.foldlM]
        rw [hbad, except_bind_error, except_bind_error]
    | cons x pre ih =>
        intro h acc
        simp only [List.cons_append, List.foldlM]
        cases hx : windowLine startT endT x with
        | error e' =>
            have := h x (List.mem_cons_self x pre)
            rw [hx] at this
            cases this
        | ok r =>
            rw [except_bind_ok, except_pure, except_bind_ok]
            exact ih (fun y hy => h y (List.mem_cons_of_mem x hy)) _
  intro pre h
  exact go pre h []

/--
C4 counterexample to the original claim: each per-record error class aborts
the run instead of being skipped — a malformed JSON line, a record without a
`timestamp` field and a record with an unparseable timestamp make
`timeslice` return the corresponding uncaught exception, and a malformed
second line makes `timeframe` abort even though its first record is valid
and in-window.
-/
theorem per_record_errors_abort_counterexample :
    timeslice ["notjson".data] 30 ("2019-07-22 20:04:31".data)
        = some (.error .jsonDecodeError) ∧
    timeslice ["\x7b\"severity\": \"NOTICE\"\x7d".data] 30 ("2019-07-22 20:04:31".data)
        = some (.error .keyError) ∧
    timeslice ["\x7b\"timestamp\": \"garbage\"\x7d".data] 30 ("2019-07-22 20:04:31".data)
        = some (.error .valueError) ∧
    timeframe ["\x7b\"timestamp\": \"2019-07-22T20:04:31Z\"\x7d".data, "notjson".data]
        ("2019-07-22 20:04:01 > 2019-07-22 20:05:01".data)
        = some (.error .jsonDecodeError) :=
  ⟨rfl, rfl, rfl, rfl⟩

/-- Witness: the amended C4 theorem with one clean in-window record followed
by a malformed line; the run aborts with `JSONDecodeError`. -/
theorem per_record_errors_abort_witness :
    windowFilter (toMicros 2019 7 22 20 4 1 0) (toMicros 2019 7 22 20 5 1 0)
        (["\x7b\"timestamp\": \"2019-07-22T20:04:31Z\"\x7d".data]
          ++ "notjson".data :: [])
      = .error .jsonDecodeError :=
  per_record_errors_abort (toMicros 2019 7 22 20 4 1 0) (toMicros 2019 7 22 20 5 1 0)
    ("notjson".data) [] .jsonDecodeError rfl
    ["\x7b\"timestamp\": \"2019-07-22T20:04:31Z\"\x7d".data] (by decide)

/--
C6.  Centered window arithmetic: `getTimeDeltas` returns
`start = center − size/2 minutes` and `end = center + size/2 minutes`
exactly, so `end − start` is exactly `size` minutes (`size * 60000000`
microseconds) and the center is the midpoint; and the concrete scenario:
center `2019-07-22 20:04:31` (as parsed by `convertTimeString`) with size 1
yields start `2019-07-22 20:04:01` and end `2019-07-22 20:05:01`.
-/
theorem centered_window_arithmetic :
    (∀ (c size : Int),
        (getTimeDeltas c size).2 - (getTimeDeltas c size).1 = size * 60000000 ∧
        c - (getTimeDeltas c size).1 = (getTimeDeltas c size).2 - c) ∧
    convertTimeString ("2019-07-22 20:04:31".data) = some (toMicros 2019 7 22 20 4 31 0) ∧
    getTimeDeltas (toMicros 2019 7 22 20 4 31 0) 1
      = (toMicros 2019 7 22 20 4 1 0, toMicros 2019 7 22 20 5 1 0) := by
  refine ⟨?_, rfl, rfl⟩
  intro c size
  constructor
  · show c + size * 30000000 - (c - size * 30000000) = size * 60000000
    ring
  · show c - (c - size * 30000000) = c + size * 30000000 - c
    ring


/-! ### Lemmas on stripping and line classification -/

theorem dropWhile_sp (n : Nat) (s : PyStr) :
    List.dropWhile isSpc (sp n ++ s) = List.dropWhile isSpc s := by
  induction n with
  | zero => rfl
  | succ n ih =>
      rw [sp, List.replicate_succ]
      simp only [List.cons_append, List.dropWhile_cons]
      rw [if_pos (by decide : isSpc ' ' = true)]
      exact ih

theorem dropWhile_head_false {s : PyStr} {c : Char} (h : isSpc c = false) :
    List.dropWhile isSpc (c :: s) = c :: s := by
  rw [List.dropWhile_cons, if_neg]
  simp [h]

theorem pyStrip_eq (n : Nat) {body : PyStr} (hne : body ≠ [])
    (hhead : ∀ c, body.head? = some c → isSpc c = false)
    (hlast : ∀ c, body.getLast? = some c → isSpc c = false) :
    pyStrip (sp n ++ body ++ ['\n']) = body := by
  obtain ⟨c, bs, rfl⟩ : ∃ c bs, body = c :: bs := by
    cases body with
    | nil => exact absurd rfl hne
    | cons c bs => exact ⟨c, bs, rfl⟩
  have hc : isSpc c = false := hhead c rfl
  unfold pyStrip
  rw [show sp n ++ (c :: bs) ++ ['\n'] = sp n ++ (c :: (bs ++ ['\n'])) from by simp]
  rw [dropWhile_sp, dropWhile_head_false hc]
  obtain ⟨d, ds, hd⟩ : ∃ d ds, (c :: (bs ++ ['\n'])).reverse = d :: ds := by
    cases hr : (c :: (bs ++ ['\n'])).reverse with
    | nil => exact absurd (List.reverse_eq_nil_iff.mp hr) (by simp)
    | cons d ds => exact ⟨d, ds, rfl⟩
  have hdval : d = '\n' := by
    have := List.head?_reverse (c :: (bs ++ ['\n']))
    rw [hd] at this
    have h2 : (c :: (bs ++ ['\n'])).getLast? = some '\n' := by
      rw [show c :: (bs ++ ['\n']) = (c :: bs) ++ ['\n'] from rfl]
      exact List.getLast?_concat _
    rw [h2] at this
    exact (Option.some.injEq _ _).mp this.symm |>.symm
  subst hdval
  rw [hd, List.dropWhile_cons, if_pos (by decide : isSpc '\n' = true)]
  have hds : ds = (c :: bs).reverse := by
    have : (c :: (bs ++ ['\n'])).reverse = ((c :: bs) ++ ['\n']).reverse := by rfl
    rw [List.reverse_append] at this
    rw [hd] at this
    simpa using this
  subst hds
  obtain ⟨e, es, he⟩ : ∃ e es, (c :: bs).reverse = e :: es := by
    cases hr : (c :: bs).reverse with
    | nil => exact absurd (List.reverse_eq_nil_iff.mp hr) (by simp)
    | cons e es => exact ⟨e, es, rfl⟩
  have helast : (c :: bs).getLast? = some e := by
    rw [← List.head?_reverse, he]; rfl
  rw [he, dropWhile_head_false (hlast e helast), ← he, List.reverse_reverse]

theorem startsWith_single_cons (c d : Char) (l : PyStr) :
    pyStartsWith [c] (d :: l) = (c == d) := by
  simp [pyStartsWith, List.isPrefixOf]

theorem sp_add_four (i : Nat) : sp (i + 4) = ' ' :: ' ' :: ' ' :: ' ' :: sp i := by
  simp [sp, List.replicate_succ]

/-- A line of the shape `indent(≥4) ++ body ++ newline` whose body starts
with a non-space character other than `[` and ends with a non-space
character is classified as interior content by `fmtStep`. -/
theorem interior_of (i : Nat) {body : PyStr} (hne : body ≠ [])
    (hhead : ∀ c, body.head? = some c → isSpc c = false ∧ c ≠ '[')
    (hlast : ∀ c, body.getLast? = some c → isSpc c = false) :
    InteriorLine (sp (i + 4) ++ body ++ ['\n']) := by
  obtain ⟨c, bs, rfl⟩ : ∃ c bs, body = c :: bs := by
    cases body with
    | nil => exact absurd rfl hne
    | cons c bs => exact ⟨c, bs, rfl⟩
  refine ⟨?_, ?_, ?_, ?_, ?_⟩
  · rw [pyStrip_eq (i + 4) hne (fun c h => (hhead c h).1) hlast,
      show ("[".data) = ['['] from rfl, startsWith_single_cons]
    have := (hhead c rfl).2
    simp [beq_eq_false_iff_ne]
    exact fun h => this h.symm
  · rw [sp_add_four]
    simp [pyStartsWith, List.isPrefixOf]
  · rw [sp_add_four]
    simp [pyStartsWith, List.isPrefixOf]
  · rw [sp_add_four]
    simp [pyStartsWith, List.isPrefixOf]
  · simp [List.length_append, sp]
    omega

/-- An interior line only extends the buffer with its stripped content. -/
theorem fmtStep_interior {l : PyStr} (st : FmtState) (h : InteriorLine l) :
    fmtStep st l = ⟨st.log ++ pyStrip l, st.out⟩ := by
  obtain ⟨h1, h2, h3, h4, h5⟩ := h
  simp [fmtStep, h1, h2, h3, h4, h5]

/-- Folding `fmtStep` over interior lines appends their stripped
concatenation to the buffer and writes nothing. -/
theorem foldl_interior : ∀ (L : List PyStr) (st : FmtState),
    (∀ l ∈ L, InteriorLine l) →
    L.foldl fmtStep st = ⟨st.log ++ (L.map pyStrip).flatten, st.out⟩ := by
  intro L
  induction L with
  | nil => intro st _; cases st; simp [List.foldl]
  | cons l ls ih =>
      intro st h
      rw [List.foldl_cons, fmtStep_interior st (h l (List.mem_cons_self l ls)),
        ih _ (fun x hx => h x (List.mem_cons_of_mem l hx))]
      simp [List.append_assoc]


/-! ### Character facts about the compact serialization -/

theorem digitChar_facts : ∀ d, d < 10 →
    isSpc (digitChar d) = false ∧ digitChar d ≠ '\n' ∧ digitChar d ≠ '[' ∧
      (digitChar d).isDigit = true ∧ (digitChar d).toNat - 48 = d ∧
      32 ≤ (digitChar d).toNat := by
  intro d hd
  interval_cases d <;>
    exact ⟨by decide, by decide, by decide, by decide, by decide, by decide⟩

theorem natDigitsAux_ne_nil {fuel : Nat} (h : 0 < fuel) (n : Nat) :
    natDigitsAux fuel n ≠ [] := by
  cases fuel with
  | zero => omega
  | succ fuel =>
      unfold natDigitsAux
      split
      · simp
      · simp

theorem natDigitsAux_mem : ∀ (fuel n : Nat), ∀ c ∈ natDigitsAux fuel n,
    ∃ d, d < 10 ∧ c = digitChar d := by
  intro fuel
  induction fuel with
  | zero => intro n c hc; simp [natDigitsAux] at hc
  | succ fuel ih =>
      intro n c hc
      unfold natDigitsAux at hc
      by_cases hn : n < 10
      · rw [if_pos hn] at hc
        simp at hc
        exact ⟨n, hn, hc⟩
      · rw [if_neg hn] at hc
        rcases List.mem_append.mp hc with h | h
        · exact ih _ c h
        · simp at h
          exact ⟨n % 10, Nat.mod_lt _ (by omega), h⟩

theorem natRepr_ne_nil (n : Nat) : natRepr n ≠ [] :=
  natDigitsAux_ne_nil (by omega) n

theorem intRepr_ne_nil (i : Int) : intRepr i ≠ [] := by
  unfold intRepr
  split
  · simp
  · exact natRepr_ne_nil _

/-- Every character of an integer's decimal form is a minus sign or a digit:
never whitespace, a newline, or an opening bracket. -/
theorem intRepr_chars (i : Int) : ∀ c ∈ intRepr i,
    isSpc c = false ∧ c ≠ '\n' ∧ c ≠ '[' ∧ 32 ≤ c.toNat := by
  intro c hc
  unfold intRepr at hc
  have digits : ∀ m, c ∈ natRepr m →
      isSpc c = false ∧ c ≠ '\n' ∧ c ≠ '[' ∧ 32 ≤ c.toNat := by
    intro m hm
    obtain ⟨d, hd, rfl⟩ := natDigitsAux_mem _ m c hm
    obtain ⟨a, b, e, _, _, f⟩ := digitChar_facts d hd
    exact ⟨a, b, e, f⟩
  split at hc
  · rcases List.mem_cons.mp hc with rfl | h
    · exact ⟨by decide, by decide, by decide, by decide⟩
    · exact digits _ h
  · exact digits _ hc

theorem mem_of_getLast? {l : PyStr} {c : Char} (h : l.getLast? = some c) : c ∈ l := by
  have : c ∈ l.reverse :=
    List.mem_of_mem_head? (by rw [List.head?_reverse, h]; rfl)
  exact List.mem_reverse.mp this

theorem compact_ne_nil : ∀ v : Json, compact v ≠ [] := by
  intro v
  cases v with
  | str s => simp [compact]
  | num n => simpa [compact] using intRepr_ne_nil n
  | bool b => cases b <;> simp [compact]
  | null => simp [compact]
  | arr xs => simp [compact]
  | obj fs => simp [compact]

/-- The first character of a compact serialization is never whitespace, and
for a non-array value it is never `[`. -/
theorem compact_head (v : Json) : ∀ c, (compact v).head? = some c →
    isSpc c = false ∧ (notArrB v = true → c ≠ '[') := by
  intro c hc
  cases v with
  | str s =>
      simp [compact] at hc
      subst hc
      exact ⟨by decide, fun _ => by decide⟩
  | num n =>
      have hmem : c ∈ intRepr n :=
        List.mem_of_mem_head? (by rw [show (compact (Json.num n)) = intRepr n from rfl] at hc; rw [hc]; rfl)
      obtain ⟨a, _, e, _⟩ := intRepr_chars n c hmem
      exact ⟨a, fun _ => e⟩
  | bool b =>
      cases b <;> (simp [compact] at hc; subst hc; exact ⟨by decide, fun _ => by decide⟩)
  | null =>
      simp [compact] at hc
      subst hc
      exact ⟨by decide, fun _ => by decide⟩
  | arr xs =>
      simp [compact] at hc
      subst hc
      exact ⟨by decide, fun h => by cases h⟩
  | obj fs =>
      simp [compact] at hc
      subst hc
      exact ⟨by decide, fun _ => by decide⟩

/-- The last character of a compact serialization is never whitespace. -/
theorem compact_last (v : Json) : ∀ c, (compact v).getLast? = some c →
    isSpc c = false := by
  intro c hc
  cases v with
  | str s =>
      rw [show compact (Json.str s) = ('"' :: s) ++ ['"'] from rfl,
        List.getLast?_concat] at hc
      cases hc
      decide
  | num n =>
      exact (intRepr_chars n c (mem_of_getLast? hc)).1
  | bool b =>
      cases b with
      | true =>
          rw [show (compact (Json.bool true)).getLast? = some 'e' from rfl] at hc
          cases hc
          decide
      | false =>
          rw [show (compact (Json.bool false)).getLast? = some 'e' from rfl] at hc
          cases hc
          decide
  | null =>
      rw [show (compact Json.null).getLast? = some 'l' from rfl] at hc
      cases hc
      decide
  | arr xs =>
      rw [show compact (Json.arr xs) = ('[' :: compactItems xs) ++ [']'] from rfl,
        List.getLast?_concat] at hc
      cases hc
      decide
  | obj fs =>
      rw [show compact (Json.obj fs) = ('\x7b' :: compactFields fs) ++ ['\x7d'] from rfl,
        List.getLast?_concat] at hc
      cases hc
      decide

theorem plainChar_ne_nl {c : Char} (h : plainChar c = true) : c ≠ '\n' := by
  intro hc
  subst hc
  simp [plainChar] at h

mutual

theorem compact_nl : ∀ (v : Json), plainJson v = true → ∀ c ∈ compact v, c ≠ '\n'
  | .str s => by
      intro hp c hc
      simp [compact] at hc
      rcases hc with rfl | hc
      · decide
      rcases hc with hc | rfl
      · have := (List.all_eq_true.mp (by simpa [plainJson, plainStr] using hp)) c hc
        exact plainChar_ne_nl this
      · decide
  | .num n => by
      intro _ c hc
      exact (intRepr_chars n c (by simpa [compact] using hc)).2.1
  | .bool b => by
      intro _ c hc
      cases b <;> (revert hc; revert c; decide)
  | .null => by
      intro _ c hc
      revert hc; revert c; decide
  | .arr xs => by
      intro hp c hc
      simp [compact] at hc
      rcases hc with rfl | hc
      · decide
      rcases hc with hc | rfl
      · exact compactItems_nl xs (by simpa [plainJson] using hp) c hc
      · decide
  | .obj fs => by
      intro hp c hc
      simp [compact] at hc
      rcases hc with rfl | hc
      · decide
      rcases hc with hc | rfl
      · exact compactFields_nl fs (by simpa [plainJson] using hp) c hc
      · decide

theorem compactItems_nl : ∀ (xs : List Json), plainItems xs = true →
    ∀ c ∈ compactItems xs, c ≠ '\n'
  | [] => by intro _ c hc; simp [compactItems] at hc
  | x :: xs => by
      intro hp c hc
      have hp' : plainJson x = true ∧ plainItems xs = true := by
        simpa [plainItems, Bool.and_eq_true] using hp
      simp [compactItems] at hc
      rcases hc with hc | hc | hc
      · exact compact_nl x hp'.1 c hc
      · rcases hc with ⟨_, rfl⟩
        decide
      · exact compactItems_nl xs hp'.2 c hc

theorem compactFields_nl : ∀ (fs : List (PyStr × Json)), plainFields fs = true →
    ∀ c ∈ compactFields fs, c ≠ '\n'
  | [] => by intro _ c hc; simp [compactFields] at hc
  | (k, v) :: fs => by
      intro hp c hc
      have hp' : plainStr k = true ∧ plainJson v = true ∧ plainFields fs = true := by
        simpa [plainFields, Bool.and_eq_true, and_assoc] using hp
      simp [compactFields] at hc
      rcases hc with rfl | hc
      · decide
      rcases hc with hc | hc
      · exact plainChar_ne_nl ((List.all_eq_true.mp hp'.1) c hc)
      rcases hc with rfl | rfl | rfl | hc
      · decide
      · decide
      · decide
      rcases hc with hc | hc | hc
      · exact compact_nl v hp'.2.1 c hc
      · rcases hc with ⟨_, rfl⟩
        decide
      · exact compactFields_nl fs hp'.2.2 c hc

end


/-! ### The lines of a pretty value are interior content with the compact
serialization as stripped concatenation -/

theorem body_ne (pre suf : PyStr) (v : Json) : pre ++ compact v ++ suf ≠ [] := by
  intro h
  rcases List.append_eq_nil.mp h with ⟨h1, _⟩
  rcases List.append_eq_nil.mp h1 with ⟨_, h3⟩
  exact compact_ne_nil v h3

theorem body_head {pre : PyStr} (suf : PyStr) {v : Json} (hpre : PreOk pre)
    (hnot : pre = [] → notArrB v = true) :
    ∀ c, (pre ++ compact v ++ suf).head? = some c → isSpc c = false ∧ c ≠ '[' := by
  intro c hc
  rcases hpre with rfl | ⟨t, rfl⟩
  · rw [List.nil_append] at hc
    obtain ⟨d, ds, hd⟩ : ∃ d ds, compact v = d :: ds := by
      cases h : compact v with
      | nil => exact absurd h (compact_ne_nil v)
      | cons d ds => exact ⟨d, ds, rfl⟩
    rw [hd] at hc
    simp at hc
    subst hc
    have := compact_head v d (by rw [hd]; rfl)
    exact ⟨this.1, this.2 (hnot rfl)⟩
  · simp at hc
    subst hc
    exact ⟨by decide, by decide⟩

theorem body_last (pre : PyStr) {suf : PyStr} (v : Json) (hsuf : SufOk suf) :
    ∀ c, (pre ++ compact v ++ suf).getLast? = some c → isSpc c = false := by
  intro c hc
  rcases hsuf with rfl | rfl
  · rw [List.append_nil, List.getLast?_append] at hc
    cases hl : (compact v).getLast? with
    | none =>
        obtain ⟨d, ds, hd⟩ : ∃ d ds, compact v = d :: ds := by
          cases h : compact v with
          | nil => exact absurd h (compact_ne_nil v)
          | cons d ds => exact ⟨d, ds, rfl⟩
        rw [hd] at hl
        simp at hl
    | some d =>
        rw [hl] at hc
        simp at hc
        subst hc
        exact compact_last v d hl
  · rw [show pre ++ compact v ++ [','] = (pre ++ compact v) ++ [','] from by simp,
      List.getLast?_concat] at hc
    cases hc
    decide

/-- One-line pretty values (scalars and empty containers) satisfy the
processing invariant. -/
theorem valGood_of_single (i : Nat) (v : Json)
    (h : ∀ pre suf, prettyVal (i + 4) pre suf v
        = [sp (i + 4) ++ pre ++ compact v ++ suf ++ ['\n']]) :
    ValGood (i + 4) v := by
  intro pre suf hpre hsuf hnot
  rw [h pre suf]
  have heq : sp (i + 4) ++ pre ++ compact v ++ suf ++ ['\n']
      = sp (i + 4) ++ (pre ++ compact v ++ suf) ++ ['\n'] := by
    simp [List.append_assoc]
  constructor
  · intro l hl
    simp only [List.mem_singleton] at hl
    subst hl
    rw [heq]
    exact interior_of i (body_ne pre suf v) (body_head suf hpre hnot)
      (body_last pre v hsuf)
  · rw [show ([sp (i + 4) ++ pre ++ compact v ++ suf ++ ['\n']].map pyStrip).flatten
        = pyStrip (sp (i + 4) ++ pre ++ compact v ++ suf ++ ['\n']) from by simp]
    rw [heq]
    exact pyStrip_eq (i + 4) (body_ne pre suf v) (fun c hc => (body_head suf hpre hnot c hc).1)
      (body_last pre v hsuf)

theorem sufOk_ite {α : Type} (xs : List α) : SufOk (if xs.isEmpty then [] else [',']) := by
  cases xs <;> simp [SufOk]

/-- Lines of a field list: all interior, stripping to `compactFields`. -/
theorem prettyFields_good (ind : Nat) :
    ∀ (fs : List (PyStr × Json)), (∀ p ∈ fs, ValGood ind p.2) →
      (∀ l ∈ prettyFields ind fs, InteriorLine l) ∧
        ((prettyFields ind fs).map pyStrip).flatten = compactFields fs := by
  intro fs
  induction fs with
  | nil =>
      intro _
      exact ⟨by simp [prettyFields], by simp [prettyFields, compactFields]⟩
  | cons p fs ih =>
      intro h
      obtain ⟨k, v⟩ := p
      have hv := h (k, v) (List.mem_cons_self _ _)
      obtain ⟨hint, hflat⟩ :=
        hv ('"' :: (k ++ ['"', ':', ' '])) (if fs.isEmpty then [] else [','])
          (Or.inr ⟨_, rfl⟩) (sufOk_ite fs) (fun hcon => by cases hcon)
      obtain ⟨hint2, hflat2⟩ := ih (fun q hq => h q (List.mem_cons_of_mem _ hq))
      constructor
      · intro l hl
        simp only [prettyFields] at hl
        rcases List.mem_append.mp hl with hl | hl
        · exact hint l (by simpa using hl)
        · exact hint2 l hl
      · simp only [prettyFields, List.map_append, List.flatten_append]
        rw [show prettyVal ind ('"' :: k ++ ['"', ':', ' '])
              (if fs.isEmpty then [] else [',']) v
            = prettyVal ind ('"' :: (k ++ ['"', ':', ' ']))
              (if fs.isEmpty then [] else [',']) v from by simp]
        rw [hflat, hflat2]
        simp [compactFields, List.append_assoc]

/-- Lines of an item list: all interior, stripping to `compactItems`. -/
theorem prettyItems_good (ind : Nat) :
    ∀ (xs : List Json), (∀ x ∈ xs, notArrB x = true ∧ ValGood ind x) →
      (∀ l ∈ prettyItems ind xs, InteriorLine l) ∧
        ((prettyItems ind xs).map pyStrip).flatten = compactItems xs := by
  intro xs
  induction xs with
  | nil =>
      intro _
      exact ⟨by simp [prettyItems], by simp [prettyItems, compactItems]⟩
  | cons x xs ih =>
      intro h
      have hx := h x (List.mem_cons_self _ _)
      obtain ⟨hint, hflat⟩ :=
        hx.2 [] (if xs.isEmpty then [] else [','])
          (Or.inl rfl) (sufOk_ite xs) (fun _ => hx.1)
      obtain ⟨hint2, hflat2⟩ := ih (fun q hq => h q (List.mem_cons_of_mem _ hq))
      constructor
      · intro l hl
        simp only [prettyItems] at hl
        rcases List.mem_append.mp hl with hl | hl
        · exact hint l hl
        · exact hint2 l hl
      · simp only [prettyItems, List.map_append, List.flatten_append]
        rw [hflat, hflat2]
        simp [compactItems, List.append_assoc]


theorem plainItems_mem : ∀ {xs : List Json}, plainItems xs = true →
    ∀ x ∈ xs, plainJson x = true := by
  intro xs
  induction xs with
  | nil => intro _ x hx; cases hx
  | cons y ys ih =>
      intro h x hx
      have h' : plainJson y = true ∧ plainItems ys = true := by
        simpa [plainItems, Bool.and_eq_true] using h
      rcases List.mem_cons.mp hx with rfl | hx
      · exact h'.1
      · exact ih h'.2 x hx

theorem plainFields_mem : ∀ {fs : List (PyStr × Json)}, plainFields fs = true →
    ∀ p ∈ fs, plainStr p.1 = true ∧ plainJson p.2 = true := by
  intro fs
  induction fs with
  | nil => intro _ p hp; cases hp
  | cons q qs ih =>
      intro h p hp
      obtain ⟨k, v⟩ := q
      have h' : plainStr k = true ∧ plainJson v = true ∧ plainFields qs = true := by
        simpa [plainFields, Bool.and_eq_true, and_assoc] using h
      rcases List.mem_cons.mp hp with rfl | hp
      · exact ⟨h'.1, h'.2.1⟩
      · exact ih h'.2.2 p hp

theorem arrArrFreeItems_mem : ∀ {xs : List Json}, arrArrFreeItems xs = true →
    ∀ x ∈ xs, notArrB x = true ∧ arrArrFree x = true := by
  intro xs
  induction xs with
  | nil => intro _ x hx; cases hx
  | cons y ys ih =>
      intro h x hx
      have h' : notArrB y = true ∧ arrArrFree y = true ∧ arrArrFreeItems ys = true := by
        simpa [arrArrFreeItems, Bool.and_eq_true, and_assoc] using h
      rcases List.mem_cons.mp hx with rfl | hx
      · exact ⟨h'.1, h'.2.1⟩
      · exact ih h'.2.2 x hx

theorem arrArrFreeFields_mem : ∀ {fs : List (PyStr × Json)}, arrArrFreeFields fs = true →
    ∀ p ∈ fs, arrArrFree p.2 = true := by
  intro fs
  induction fs with
  | nil => intro _ p hp; cases hp
  | cons q qs ih =>
      intro h p hp
      obtain ⟨k, v⟩ := q
      have h' : arrArrFree v = true ∧ arrArrFreeFields qs = true := by
        simpa [arrArrFreeFields, Bool.and_eq_true] using h
      rcases List.mem_cons.mp hp with rfl | hp
      · exact h'.1
      · exact ih h'.2 p hp

theorem open_line_facts (i : Nat) (pre : PyStr) (b : Char)
    (hpre : PreOk pre) (hb : isSpc b = false) (hnb : pre = [] → b ≠ '[') :
    InteriorLine (sp (i + 4) ++ (pre ++ [b]) ++ ['\n']) ∧
      pyStrip (sp (i + 4) ++ (pre ++ [b]) ++ ['\n']) = pre ++ [b] := by
  have hne : pre ++ [b] ≠ [] := by simp
  have hhead : ∀ c, (pre ++ [b]).head? = some c → isSpc c = false ∧ c ≠ '[' := by
    intro c hc
    rcases hpre with rfl | ⟨t, rfl⟩
    · simp at hc; subst hc; exact ⟨hb, hnb rfl⟩
    · simp at hc; subst hc; exact ⟨by decide, by decide⟩
  have hlast : ∀ c, (pre ++ [b]).getLast? = some c → isSpc c = false := by
    intro c hc
    rw [List.getLast?_concat] at hc
    cases hc
    exact hb
  exact ⟨interior_of i hne hhead hlast,
    pyStrip_eq (i + 4) hne (fun c hc => (hhead c hc).1) hlast⟩

theorem close_line_facts (i : Nat) (suf : PyStr) (b : Char)
    (hsuf : SufOk suf) (hb : isSpc b = false) (hnb : b ≠ '[') :
    InteriorLine (sp (i + 4) ++ (b :: suf) ++ ['\n']) ∧
      pyStrip (sp (i + 4) ++ (b :: suf) ++ ['\n']) = b :: suf := by
  have hne : (b :: suf) ≠ [] := by simp
  have hhead : ∀ c, (b :: suf).head? = some c → isSpc c = false ∧ c ≠ '[' := by
    intro c hc
    simp at hc
    subst hc
    exact ⟨hb, hnb⟩
  have hlast : ∀ c, (b :: suf).getLast? = some c → isSpc c = false := by
    intro c hc
    rcases hsuf with rfl | rfl
    · simp at hc; subst hc; exact hb
    · rw [show (b :: [','] : PyStr) = [b] ++ [','] from rfl, List.getLast?_concat] at hc
      cases hc
      decide
  exact ⟨interior_of i hne hhead hlast,
    pyStrip_eq (i + 4) hne (fun c hc => (hhead c hc).1) hlast⟩

/-- Every plain, array-in-array-free value satisfies the processing
invariant at any interior indentation. -/
theorem valGood_all : ∀ (N : Nat) (v : Json), sizeOf v ≤ N →
    plainJson v = true → arrArrFree v = true → ∀ i, ValGood (i + 4) v := by
  intro N
  induction N with
  | zero =>
      intro v hv
      exfalso
      cases v <;> simp at hv
  | succ N ih =>
      intro v hv hp hf i
      cases v with
      | str s => exact valGood_of_single i (Json.str s) (fun pre suf => rfl)
      | num n => exact valGood_of_single i (Json.num n) (fun pre suf => rfl)
      | bool b => exact valGood_of_single i (Json.bool b) (fun pre suf => rfl)
      | null => exact valGood_of_single i Json.null (fun pre suf => rfl)
      | arr xs =>
          cases xs with
          | nil =>
              exact valGood_of_single i (Json.arr [])
                (fun pre suf => by simp [prettyVal, compact, compactItems])
          | cons x xs' =>
              intro pre suf hpre hsuf hnot
              have hpre' : ∃ t, pre = '"' :: t := by
                rcases hpre with rfl | h
                · exact absurd (hnot rfl) (by simp [notArrB])
                · exact h
              obtain ⟨t, rfl⟩ := hpre'
              have hsz : ∀ y ∈ x :: xs', sizeOf y ≤ N := by
                intro y hy
                have h1 := List.sizeOf_lt_of_mem hy
                have h2 : sizeOf (Json.arr (x :: xs')) = 1 + sizeOf (x :: xs') := by simp
                omega
              have hpl := plainItems_mem (by simpa [plainJson] using hp)
              have hff := arrArrFreeItems_mem (by simpa [arrArrFree] using hf)
              have harith : i + 4 + 2 = i + 2 + 4 := by omega
              obtain ⟨hintI, hflatI⟩ := prettyItems_good (i + 4 + 2) (x :: xs')
                (fun y hy => ⟨(hff y hy).1, by
                  rw [harith]
                  exact ih y (hsz y hy) (hpl y hy) (hff y hy).2 (i + 2)⟩)
              have hopen := open_line_facts i ('"' :: t) '[' (Or.inr ⟨t, rfl⟩)
                (by decide) (fun hcon => by cases hcon)
              have hclose := close_line_facts i suf ']' hsuf (by decide) (by decide)
              have heq1 : sp (i + 4) ++ ('"' :: t) ++ ['[', '\n']
                  = sp (i + 4) ++ (('"' :: t) ++ ['[']) ++ ['\n'] := by simp
              constructor
              · intro l hl
                simp only [prettyVal] at hl
                rcases List.mem_cons.mp hl with rfl | hl
                · rw [heq1]; exact hopen.1
                rcases List.mem_append.mp hl with hl | hl
                · exact hintI l hl
                · simp only [List.mem_singleton] at hl
                  subst hl
                  exact hclose.1
              · simp only [prettyVal, List.map_cons, List.map_append,
                  List.flatten_cons, List.flatten_append, List.map_nil,
                  List.flatten_nil]
                rw [heq1, hopen.2, hflatI, hclose.2]
                simp [compact, List.append_assoc]
      | obj fs =>
          cases fs with
          | nil =>
              exact valGood_of_single i (Json.obj [])
                (fun pre suf => by simp [prettyVal, compact, compactFields])
          | cons f fs' =>
              intro pre suf hpre hsuf hnot
              have hsz : ∀ p ∈ f :: fs', sizeOf p.2 ≤ N := by
                intro p hp
                have h1 := List.sizeOf_lt_of_mem hp
                have h2 : sizeOf (Json.obj (f :: fs')) = 1 + sizeOf (f :: fs') := by simp
                obtain ⟨k, w⟩ := p
                have h3 : sizeOf ((k, w) : PyStr × Json) = 1 + sizeOf k + sizeOf w := by simp
                show sizeOf w ≤ N
                omega
              have hpl := plainFields_mem (by simpa [plainJson] using hp)
              have hff := arrArrFreeFields_mem (by simpa [arrArrFree] using hf)
              have harith : i + 4 + 2 = i + 2 + 4 := by omega
              obtain ⟨hintF, hflatF⟩ := prettyFields_good (i + 4 + 2) (f :: fs')
                (fun p hp' => by
                  rw [harith]
                  exact ih p.2 (hsz p hp') (hpl p hp').2 (hff p hp') (i + 2))
              have hopen := open_line_facts i pre '\x7b' hpre (by decide)
                (fun _ => by decide)
              have hclose := close_line_facts i suf '\x7d' hsuf (by decide) (by decide)
              have heq1 : sp (i + 4) ++ pre ++ ['\x7b', '\n']
                  = sp (i + 4) ++ (pre ++ ['\x7b']) ++ ['\n'] := by simp
              constructor
              · intro l hl
                simp only [prettyVal] at hl
                rcases List.mem_cons.mp hl with rfl | hl
                · rw [heq1]; exact hopen.1
                rcases List.mem_append.mp hl with hl | hl
                · exact hintF l hl
                · simp only [List.mem_singleton] at hl
                  subst hl
                  exact hclose.1
              · simp only [prettyVal, List.map_cons, List.map_append,
                  List.flatten_cons, List.flatten_append, List.map_nil,
                  List.flatten_nil]
                rw [heq1, hopen.2, hflatF, hclose.2]
                simp [compact, List.append_assoc]


/-! ### Processing of the top-level record blocks -/

/-- A top-level record block (`"  {"`, fields at indent 4, `"  }"` with
optional comma): the opener starts accumulation, the fields accumulate their
stripped content, the closer emits the buffer extended with `"}"` and resets
it to `"\n"` — one written string per record, the single-line serialization
appended to whatever the buffer held. -/
theorem obj_block (f : PyStr × Json) (fs' : List (PyStr × Json)) (suf : PyStr)
    (hsuf : SufOk suf)
    (hgood : ∀ p ∈ f :: fs', ValGood (2 + 2) p.2) :
    ∀ st : FmtState,
      (prettyVal 2 [] suf (Json.obj (f :: fs'))).foldl fmtStep st
        = ⟨['\n'], st.out ++ [st.log ++ compact (Json.obj (f :: fs'))]⟩ := by
  intro st
  obtain ⟨hintF, hflatF⟩ := prettyFields_good (2 + 2) (f :: fs') hgood
  simp only [prettyVal]
  rw [List.foldl_append]
  simp only [List.foldl_cons, List.foldl_nil]
  have h1 : fmtStep st (sp 2 ++ [] ++ ['\x7b', '\n']) = ⟨st.log ++ ['\x7b'], st.out⟩ := rfl
  rw [h1, foldl_interior _ _ hintF, hflatF]
  rcases hsuf with rfl | rfl
  · have h2 : ∀ s : FmtState, fmtStep s (sp 2 ++ ('\x7d' :: ([] : PyStr)) ++ ['\n'])
        = ⟨['\n'], s.out ++ [s.log ++ ['\x7d']]⟩ := fun s => rfl
    rw [h2]
    simp [compact, List.append_assoc]
  · have h2 : ∀ s : FmtState, fmtStep s (sp 2 ++ ('\x7d' :: [',']) ++ ['\n'])
        = ⟨['\n'], s.out ++ [s.log ++ ['\x7d']]⟩ := fun s => rfl
    rw [h2]
    simp [compact, List.append_assoc]

theorem topObjOk_shape {o : Json} (h : topObjOk o = true) :
    ∃ f fs', o = Json.obj (f :: fs') ∧ plainFields (f :: fs') = true ∧
      arrArrFreeFields (f :: fs') = true := by
  cases o with
  | obj fs =>
      cases fs with
      | nil => simp [topObjOk] at h
      | cons f fs' =>
          have h' : plainFields (f :: fs') = true ∧ arrArrFreeFields (f :: fs') = true := by
            simpa [topObjOk, Bool.and_eq_true] using h
          exact ⟨f, fs', rfl, h'.1, h'.2⟩
  | str s => simp [topObjOk] at h
  | num n => simp [topObjOk] at h
  | bool b => simp [topObjOk] at h
  | null => simp [topObjOk] at h
  | arr xs => simp [topObjOk] at h

theorem valGood_top {p : PyStr × Json} (hp : plainJson p.2 = true)
    (hf : arrArrFree p.2 = true) : ValGood (2 + 2) p.2 := by
  have := valGood_all (sizeOf p.2) p.2 (Nat.le_refl _) hp hf 0
  rw [show (0 + 4 : Nat) = 2 + 2 from rfl] at this
  exact this

/-- Folding the normalizer over the pretty lines of a record list writes one
string per record — the leftover buffer plus the record's single-line
serialization — and leaves `"\n"` in the buffer (unless no record at all was
processed). -/
theorem top_fold : ∀ (objs : List Json), (∀ o ∈ objs, topObjOk o = true) →
    ∀ st : FmtState,
      (prettyItems 2 objs).foldl fmtStep st
        = ⟨if objs.isEmpty then st.log else ['\n'], st.out ++ emitted st.log objs⟩ := by
  intro objs
  induction objs with
  | nil =>
      intro _ st
      cases st
      simp [prettyItems, emitted, List.foldl]
  | cons o os ih =>
      intro h st
      obtain ⟨f, fs', rfl, hpl, hff⟩ := topObjOk_shape (h o (List.mem_cons_self o os))
      simp only [prettyItems]
      rw [List.foldl_append]
      rw [obj_block f fs' _ (sufOk_ite os)
        (fun p hp => valGood_top (plainFields_mem hpl p hp).2 (arrArrFreeFields_mem hff p hp)) st]
      rw [ih (fun x hx => h x (List.mem_cons_of_mem _ hx))
        ⟨['\n'], st.out ++ [st.log ++ compact (Json.obj (f :: fs'))]⟩]
      simp [emitted, List.append_assoc]

/-- The normalizer on a conforming pretty-printed array writes exactly the
records' single-line serializations, the first as-is and each later one
preceded by the leftover `"\n"` buffer. -/
theorem gcloudFormatter_pretty (objs : List Json)
    (h : ∀ o ∈ objs, topObjOk o = true) :
    gcloudFormatter (prettyArray objs) = emitted [] objs := by
  unfold gcloudFormatter prettyArray
  rw [List.foldl_append]
  simp only [List.foldl_cons, List.foldl_nil]
  have h1 : fmtStep ⟨[], []⟩ ['[', '\n'] = ⟨[], []⟩ := rfl
  rw [h1, top_fold objs h ⟨[], []⟩]
  have h2 : ∀ s : FmtState, fmtStep s [']', '\n'] = s := fun s => rfl
  rw [h2]
  simp

theorem emitted_flatten_aux : ∀ (os : List Json),
    (emitted ['\n'] os).flatten = (os.map (fun o => '\n' :: compact o)).flatten := by
  intro os
  induction os with
  | nil => rfl
  | cons o os ih =>
      simp only [emitted, List.flatten_cons, List.map_cons, ih]
      rfl

/-- The output file content is the records' serializations joined by single
newlines (nothing before the first, nothing after the last). -/
theorem emitted_flatten (objs : List Json) :
    (emitted [] objs).flatten = nlJoined (objs.map compact) := by
  cases objs with
  | nil => rfl
  | cons o os =>
      simp only [emitted, List.flatten_cons, List.nil_append, List.map_cons, nlJoined]
      rw [emitted_flatten_aux, List.map_map]
      rfl

/-- The last character of the output for a non-empty conforming record list
is the closing brace of the last record. -/
theorem emitted_flatten_last : ∀ (objs : List Json) (l : PyStr),
    (∀ o ∈ objs, ∃ gs, o = Json.obj gs) → objs ≠ [] →
    ((emitted l objs).flatten).getLast? = some '\x7d' := by
  intro objs
  induction objs with
  | nil => intro l _ hne; exact absurd rfl hne
  | cons o os ih =>
      intro l h _
      cases os with
      | nil =>
          obtain ⟨gs, rfl⟩ := h o (List.mem_cons_self o [])
          simp only [emitted, List.flatten_cons, List.flatten_nil, List.append_nil]
          rw [show l ++ compact (Json.obj gs)
              = (l ++ ('\x7b' :: compactFields gs)) ++ ['\x7d'] from by
            simp [compact, List.append_assoc]]
          exact List.getLast?_concat _
      | cons o' os' =>
          have hrec := ih ['\n'] (fun x hx => h x (List.mem_cons_of_mem _ hx)) (by simp)
          rw [show (emitted l (o :: o' :: os')).flatten
              = (l ++ compact o) ++ (emitted ['\n'] (o' :: os')).flatten from by
            rw [show emitted l (o :: o' :: os')
                = (l ++ compact o) :: emitted ['\n'] (o' :: os') from rfl,
              List.flatten_cons]]
          rw [List.getLast?_append, hrec]
          rfl

/-! ### Round-trip: `json.loads` recovers a value from its compact
serialization -/

theorem skipWs_cons {c : Char} (h : isJsonWs c = false) (t : PyStr) :
    skipWs (c :: t) = c :: t := by
  rw [skipWs, List.dropWhile_cons, if_neg]
  simp [h]

theorem parseStringBody_plain : ∀ (s : PyStr), plainStr s = true → ∀ rest,
    parseStringBody (s ++ '"' :: rest) = some (s, rest)
  | [], _ => by intro rest; rfl
  | c :: s', h => by
      intro rest
      have hc : plainChar c = true ∧ plainStr s' = true := by
        simpa [plainStr, Bool.and_eq_true] using h
      have hcc : 32 ≤ c.toNat ∧ c ≠ '"' ∧ c ≠ '\\' := by
        simpa [plainChar, Bool.and_eq_true, bne_iff_ne, and_assoc] using hc.1
      have h1 : (c == '"') = false := by
        simpa [beq_eq_false_iff_ne] using hcc.2.1
      have h2 : jsonStrChar c = true := by
        simp only [jsonStrChar, Bool.and_eq_true, bne_iff_ne, decide_eq_true_eq,
          and_assoc]
        exact ⟨hcc.2.1, hcc.2.2, hcc.1⟩
      rw [List.cons_append,
        show parseStringBody (c :: (s' ++ '"' :: rest))
          = if c == '"' then some ([], s' ++ '"' :: rest)
            else if jsonStrChar c then
              match parseStringBody (s' ++ '"' :: rest) with
              | some (s, r) => some (c :: s, r)
              | none => none
            else none from rfl,
        h1, h2]
      rw [parseStringBody_plain s' hc.2 rest]
      rfl

theorem isDigit_facts {c : Char} (h : c.isDigit = true) :
    (c == '"') = false ∧ (c == '[') = false ∧ (c == '\x7b') = false ∧
      (c == 't') = false ∧ (c == 'f') = false ∧ (c == 'n') = false ∧
      isJsonWs c = false ∧ c ≠ ']' ∧ c ≠ '\x7d' ∧ c ≠ '-' := by
  have hne : ∀ d : Char, d.isDigit = false → c ≠ d := by
    intro d hd he
    rw [he, hd] at h
    cases h
  have hb : ∀ d : Char, d.isDigit = false → (c == d) = false := by
    intro d hd
    exact beq_eq_false_iff_ne.mpr (hne d hd)
  refine ⟨hb _ (by decide), hb _ (by decide), hb _ (by decide), hb _ (by decide),
    hb _ (by decide), hb _ (by decide), ?_, hne _ (by decide), hne _ (by decide),
    hne _ (by decide)⟩
  rw [isJsonWs, hb _ (by decide), hb _ (by decide), hb _ (by decide), hb _ (by decide)]
  rfl

theorem parseDigitsAux_append : ∀ (ds : PyStr), (∀ c ∈ ds, c.isDigit = true) →
    ∀ (rest : PyStr), numSafe rest = true → ∀ acc,
    parseDigitsAux (ds ++ rest) acc
      = (ds.foldl (fun a c => a * 10 + (c.toNat - 48)) acc, rest)
  | [], _ => by
      intro rest hr acc
      cases rest with
      | nil => rfl
      | cons c t =>
          have hc : c.isDigit = false := by
            simpa [numSafe, Bool.not_eq_true'] using hr
          simp [parseDigitsAux, hc]
  | d :: ds, h => by
      intro rest hr acc
      have hd : d.isDigit = true := h d (List.mem_cons_self d ds)
      rw [List.cons_append,
        show parseDigitsAux (d :: (ds ++ rest)) acc
          = if d.isDigit then parseDigitsAux (ds ++ rest) (acc * 10 + (d.toNat - 48))
            else (acc, d :: (ds ++ rest)) from rfl,
        if_pos hd, List.foldl_cons]
      exact parseDigitsAux_append ds (fun c hc => h c (List.mem_cons_of_mem d hc)) rest hr _

theorem natDigitsAux_isDigit (fuel n : Nat) : ∀ c ∈ natDigitsAux fuel n,
    c.isDigit = true := by
  intro c hc
  obtain ⟨d, hd, rfl⟩ := natDigitsAux_mem fuel n c hc
  exact (digitChar_facts d hd).2.2.2.1

theorem natDigitsAux_foldl : ∀ (fuel n : Nat), n < fuel → ∀ acc,
    (natDigitsAux fuel n).foldl (fun a c => a * 10 + (c.toNat - 48)) acc
      = acc * 10 ^ (natDigitsAux fuel n).length + n := by
  intro fuel
  induction fuel with
  | zero => intro n h; omega
  | succ fuel ih =>
      intro n h acc
      by_cases hn : n < 10
      · rw [show natDigitsAux (fuel + 1) n = [digitChar n] from by
          simp [natDigitsAux, hn]]
        simp only [List.foldl_cons, List.foldl_nil, List.length_singleton, pow_one]
        rw [(digitChar_facts n hn).2.2.2.2.1]
      · have hdiv : n / 10 < fuel := by
          have := Nat.div_lt_self (by omega : 0 < n) (by omega : 1 < 10)
          omega
        rw [show natDigitsAux (fuel + 1) n
            = natDigitsAux fuel (n / 10) ++ [digitChar (n % 10)] from by
          simp [natDigitsAux, hn]]
        rw [List.foldl_append, ih (n / 10) hdiv acc]
        have hm : n % 10 < 10 := Nat.mod_lt _ (by omega)
        simp only [List.foldl_cons, List.foldl_nil, List.length_append,
          List.length_singleton]
        rw [(digitChar_facts (n % 10) hm).2.2.2.2.1]
        have key : (acc * 10 ^ (natDigitsAux fuel (n / 10)).length + n / 10) * 10 + n % 10
            = acc * (10 ^ (natDigitsAux fuel (n / 10)).length * 10)
              + (10 * (n / 10) + n % 10) := by ring
        rw [key, Nat.div_add_mod, ← pow_succ]

theorem natRepr_foldl (m : Nat) :
    (natRepr m).foldl (fun a c => a * 10 + (c.toNat - 48)) 0 = m := by
  rw [natRepr, natDigitsAux_foldl (m + 1) m (by omega) 0]
  simp

theorem natRepr_head_digit {m : Nat} {d : Char} {ds : PyStr}
    (h : natRepr m = d :: ds) :
    d.isDigit = true ∧ ∀ c ∈ ds, c.isDigit = true := by
  have hall : ∀ c ∈ natRepr m, c.isDigit = true := natDigitsAux_isDigit (m + 1) m
  rw [h] at hall
  exact ⟨hall d (List.mem_cons_self d ds),
    fun c hc => hall c (List.mem_cons_of_mem d hc)⟩

theorem parseNum_cons_digit {d : Char} (hd : d.isDigit = true) (t : PyStr) :
    parseNum (d :: t)
      = some (((parseDigitsAux t (d.toNat - 48)).1 : Int),
          (parseDigitsAux t (d.toNat - 48)).2) := by
  have hne : d ≠ '-' := (isDigit_facts hd).2.2.2.2.2.2.2.2.2
  rw [parseNum.eq_def]
  split
  next c r heq =>
    injection heq with h1 _
    exact absurd h1 hne
  next c r heq =>
    injection heq with h1 h2
    subst h1
    subst h2
    rw [if_pos hd]
  next heq =>
    simp at heq

theorem parseNum_intRepr (i : Int) (rest : PyStr) (hr : numSafe rest = true) :
    parseNum (intRepr i ++ rest) = some (i, rest) := by
  unfold intRepr
  by_cases hi : i < 0
  · rw [if_pos hi]
    obtain ⟨d, ds, hds⟩ := List.exists_cons_of_ne_nil (natRepr_ne_nil (-i).toNat)
    obtain ⟨hd, hall⟩ := natRepr_head_digit hds
    rw [hds]
    rw [show ('-' :: d :: ds) ++ rest = '-' :: d :: (ds ++ rest) from by simp]
    rw [show parseNum ('-' :: d :: (ds ++ rest))
        = if d.isDigit then
            some (-((parseDigitsAux (ds ++ rest) (d.toNat - 48)).1 : Int),
              (parseDigitsAux (ds ++ rest) (d.toNat - 48)).2)
          else none from rfl]
    rw [if_pos hd, parseDigitsAux_append ds hall rest hr (d.toNat - 48)]
    have hv : ds.foldl (fun a c => a * 10 + (c.toNat - 48)) (d.toNat - 48)
        = (-i).toNat := by
      have hfold := natRepr_foldl (-i).toNat
      rw [hds, List.foldl_cons] at hfold
      simpa using hfold
    simp only [hv]
    have hcast : (((-i).toNat : Nat) : Int) = -i := Int.toNat_of_nonneg (by omega)
    rw [show ((((-i).toNat, rest) : Nat × PyStr).1 : Int) = (((-i).toNat : Nat) : Int)
        from rfl, hcast, neg_neg]
  · rw [if_neg hi]
    obtain ⟨d, ds, hds⟩ := List.exists_cons_of_ne_nil (natRepr_ne_nil i.toNat)
    obtain ⟨hd, hall⟩ := natRepr_head_digit hds
    rw [hds, List.cons_append, parseNum_cons_digit hd,
      parseDigitsAux_append ds hall rest hr (d.toNat - 48)]
    have hv : ds.foldl (fun a c => a * 10 + (c.toNat - 48)) (d.toNat - 48)
        = i.toNat := by
      have hfold := natRepr_foldl i.toNat
      rw [hds, List.foldl_cons] at hfold
      simpa using hfold
    simp only [hv]
    have hcast : ((i.toNat : Nat) : Int) = i := Int.toNat_of_nonneg (by omega)
    rw [show (((i.toNat, rest) : Nat × PyStr).1 : Int) = ((i.toNat : Nat) : Int)
        from rfl, hcast]

theorem pfuel_pos : ∀ v : Json, 1 ≤ pfuel v := by
  intro v
  cases v <;> simp [pfuel]

theorem intRepr_head {i : Int} {d : Char} {t : PyStr} (h : intRepr i = d :: t) :
    d = '-' ∨ d.isDigit = true := by
  unfold intRepr at h
  split at h
  · injection h with h1 _
    exact Or.inl h1.symm
  · exact Or.inr (natRepr_head_digit h).1

theorem compact_head_parse : ∀ (v : Json) (c : Char) (t : PyStr),
    compact v = c :: t → isJsonWs c = false ∧ c ≠ ']' ∧ c ≠ '\x7d' := by
  intro v c t h
  cases v with
  | str s =>
      rw [show compact (Json.str s) = '"' :: (s ++ ['"']) from by simp [compact]] at h
      injection h with h1 _
      subst h1
      exact ⟨by decide, by decide, by decide⟩
  | num n =>
      rcases intRepr_head h with rfl | hd
      · exact ⟨by decide, by decide, by decide⟩
      · obtain ⟨_, _, _, _, _, _, hws, hb, hbr, _⟩ := isDigit_facts hd
        exact ⟨hws, hb, hbr⟩
  | bool b =>
      cases b with
      | true =>
          rw [show compact (Json.bool true) = 't' :: "rue".data from rfl] at h
          injection h with h1 _
          subst h1
          exact ⟨by decide, by decide, by decide⟩
      | false =>
          rw [show compact (Json.bool false) = 'f' :: "alse".data from rfl] at h
          injection h with h1 _
          subst h1
          exact ⟨by decide, by decide, by decide⟩
  | null =>
      rw [show compact Json.null = 'n' :: "ull".data from rfl] at h
      injection h with h1 _
      subst h1
      exact ⟨by decide, by decide, by decide⟩
  | arr xs =>
      rw [show compact (Json.arr xs) = '[' :: (compactItems xs ++ [']']) from by
        simp [compact]] at h
      injection h with h1 _
      subst h1
      exact ⟨by decide, by decide, by decide⟩
  | obj fs =>
      rw [show compact (Json.obj fs) = '\x7b' :: (compactFields fs ++ ['\x7d']) from by
        simp [compact]] at h
      injection h with h1 _
      subst h1
      exact ⟨by decide, by decide, by decide⟩

theorem parseVal_ws (fuel : Nat) (s : PyStr) :
    parseVal fuel (' ' :: s) = parseVal fuel s := by
  cases fuel with
  | zero => rfl
  | succ f => rfl

theorem parseVal_str (f : Nat) (s : PyStr) (hs : plainStr s = true) (rest : PyStr) :
    parseVal (f + 1) (compact (Json.str s) ++ rest) = some (Json.str s, rest) := by
  rw [show compact (Json.str s) ++ rest = '"' :: (s ++ '"' :: rest) from by
    simp [compact]]
  rw [show parseVal (f + 1) ('"' :: (s ++ '"' :: rest))
      = (match parseStringBody (s ++ '"' :: rest) with
         | some (str, r) => some (Json.str str, r)
         | none => none) from rfl]
  rw [parseStringBody_plain s hs rest]

theorem parseVal_true (f : Nat) (rest : PyStr) :
    parseVal (f + 1) (compact (Json.bool true) ++ rest) = some (Json.bool true, rest) := by
  rw [show compact (Json.bool true) ++ rest = 't' :: ('r' :: 'u' :: 'e' :: rest) from rfl]
  simp only [parseVal]
  rw [skipWs_cons (by decide)]
  simp [List.isPrefixOf]

theorem parseVal_false (f : Nat) (rest : PyStr) :
    parseVal (f + 1) (compact (Json.bool false) ++ rest) = some (Json.bool false, rest) := by
  rw [show compact (Json.bool false) ++ rest
      = 'f' :: ('a' :: 'l' :: 's' :: 'e' :: rest) from rfl]
  simp only [parseVal]
  rw [skipWs_cons (by decide)]
  simp [List.isPrefixOf]

theorem parseVal_null (f : Nat) (rest : PyStr) :
    parseVal (f + 1) (compact Json.null ++ rest) = some (Json.null, rest) := by
  rw [show compact Json.null ++ rest = 'n' :: ('u' :: 'l' :: 'l' :: rest) from rfl]
  simp only [parseVal]
  rw [skipWs_cons (by decide)]
  simp [List.isPrefixOf]

theorem parseVal_arrNil (f : Nat) (rest : PyStr) :
    parseVal (f + 1) (compact (Json.arr []) ++ rest) = some (Json.arr [], rest) := by
  rw [show compact (Json.arr []) ++ rest = '[' :: (']' :: rest) from by
    simp [compact, compactItems]]
  simp only [parseVal]
  rw [skipWs_cons (by decide)]
  simp [skipWs_cons (by decide : isJsonWs ']' = false)]

theorem parseVal_objNil (f : Nat) (rest : PyStr) :
    parseVal (f + 1) (compact (Json.obj []) ++ rest) = some (Json.obj [], rest) := by
  rw [show compact (Json.obj []) ++ rest = '\x7b' :: ('\x7d' :: rest) from by
    simp [compact, compactFields]]
  simp only [parseVal]
  rw [skipWs_cons (by decide)]
  simp [skipWs_cons (by decide : isJsonWs '\x7d' = false)]

theorem parseVal_num (f : Nat) (n : Int) (rest : PyStr) (hr : numSafe rest = true) :
    parseVal (f + 1) (compact (Json.num n) ++ rest) = some (Json.num n, rest) := by
  obtain ⟨d, t, hdt⟩ := List.exists_cons_of_ne_nil (intRepr_ne_nil n)
  have hdfacts : (d == '"') = false ∧ (d == '[') = false ∧ (d == '\x7b') = false ∧
      (d == 't') = false ∧ (d == 'f') = false ∧ (d == 'n') = false ∧
      isJsonWs d = false := by
    rcases intRepr_head hdt with rfl | hd
    · exact ⟨by decide, by decide, by decide, by decide, by decide, by decide, by decide⟩
    · obtain ⟨h1, h2, h3, h4, h5, h6, h7, _, _, _⟩ := isDigit_facts hd
      exact ⟨h1, h2, h3, h4, h5, h6, h7⟩
  rw [show compact (Json.num n) ++ rest = intRepr n ++ rest from rfl, hdt,
    List.cons_append]
  simp only [parseVal]
  rw [skipWs_cons hdfacts.2.2.2.2.2.2]
  simp only [hdfacts.1, hdfacts.2.1, hdfacts.2.2.1, hdfacts.2.2.2.1,
    hdfacts.2.2.2.2.1, hdfacts.2.2.2.2.2.1, Bool.false_eq_true, if_false]
  rw [show d :: (t ++ rest) = intRepr n ++ rest from by rw [hdt, List.cons_append],
    parseNum_intRepr n rest hr]

theorem parseVal_arr_cons (f : Nat) (x : Json) (xs : List Json) (rest : PyStr)
    (hitems : parseItems f (compactItems (x :: xs) ++ ']' :: rest) []
      = some (Json.arr (x :: xs), rest)) :
    parseVal (f + 1) (compact (Json.arr (x :: xs)) ++ rest)
      = some (Json.arr (x :: xs), rest) := by
  obtain ⟨c, t, hct⟩ := List.exists_cons_of_ne_nil (compact_ne_nil x)
  have hcf := compact_head_parse x c t hct
  have hinner : compactItems (x :: xs) ++ ']' :: rest
      = c :: (t ++ ((if xs.isEmpty then [] else [',']) ++ (compactItems xs ++ ']' :: rest))) := by
    simp [compactItems, hct]
  rw [show compact (Json.arr (x :: xs)) ++ rest
      = '[' :: (compactItems (x :: xs) ++ ']' :: rest) from by simp [compact]]
  simp only [parseVal]
  rw [skipWs_cons (by decide)]
  simp [show skipWs (compactItems (x :: xs) ++ ']' :: rest)
      = compactItems (x :: xs) ++ ']' :: rest from by
    rw [hinner]; exact skipWs_cons hcf.1 _]
  split
  next r2 heq =>
    rw [hinner] at heq
    injection heq with h1 _
    exact absurd h1 hcf.2.1
  next => exact hitems

theorem parseVal_obj_cons (f : Nat) (g : PyStr × Json) (fs : List (PyStr × Json))
    (rest : PyStr)
    (hfields : parseFields f (compactFields (g :: fs) ++ '\x7d' :: rest) []
      = some (Json.obj (g :: fs), rest)) :
    parseVal (f + 1) (compact (Json.obj (g :: fs)) ++ rest)
      = some (Json.obj (g :: fs), rest) := by
  obtain ⟨k, v⟩ := g
  have hinner : compactFields ((k, v) :: fs) ++ '\x7d' :: rest
      = '"' :: ((k ++ '"' :: ':' :: ' ' :: compact v
          ++ (if fs.isEmpty then [] else [',']) ++ compactFields fs) ++ '\x7d' :: rest) := by
    simp [compactFields]
  rw [show compact (Json.obj ((k, v) :: fs)) ++ rest
      = '\x7b' :: (compactFields ((k, v) :: fs) ++ '\x7d' :: rest) from by simp [compact]]
  simp only [parseVal]
  rw [skipWs_cons (by decide)]
  simp [show skipWs (compactFields ((k, v) :: fs) ++ '\x7d' :: rest)
      = compactFields ((k, v) :: fs) ++ '\x7d' :: rest from by
    rw [hinner]; exact skipWs_cons (by decide) _]
  split
  next r2 heq =>
    rw [hinner] at heq
    injection heq with h1 _
    exact absurd h1 (by decide)
  next => exact hfields

mutual

/-- The recursive-descent parser consumes exactly the compact serialization
of a plain value and returns that value. -/
theorem parseVal_compact : ∀ (v : Json), plainJson v = true → ∀ (fuel : Nat),
    pfuel v ≤ fuel → ∀ (rest : PyStr), numSafe rest = true →
    parseVal fuel (compact v ++ rest) = some (v, rest)
  | .str s => by
      intro hp fuel hf rest _
      obtain ⟨f, rfl⟩ : ∃ f, fuel = f + 1 :=
        ⟨fuel - 1, by have := pfuel_pos (Json.str s); omega⟩
      exact parseVal_str f s (by simpa [plainJson] using hp) rest
  | .num n => by
      intro _ fuel hf rest hr
      obtain ⟨f, rfl⟩ : ∃ f, fuel = f + 1 :=
        ⟨fuel - 1, by have := pfuel_pos (Json.num n); omega⟩
      exact parseVal_num f n rest hr
  | .bool b => by
      intro _ fuel hf rest _
      obtain ⟨f, rfl⟩ : ∃ f, fuel = f + 1 :=
        ⟨fuel - 1, by have := pfuel_pos (Json.bool b); omega⟩
      cases b with
      | false => exact parseVal_false f rest
      | true => exact parseVal_true f rest
  | .null => by
      intro _ fuel hf rest _
      obtain ⟨f, rfl⟩ : ∃ f, fuel = f + 1 :=
        ⟨fuel - 1, by have := pfuel_pos Json.null; omega⟩
      exact parseVal_null f rest
  | .arr xs => by
      intro hp fuel hf rest _
      obtain ⟨f, rfl⟩ : ∃ f, fuel = f + 1 :=
        ⟨fuel - 1, by have := pfuel_pos (Json.arr xs); omega⟩
      cases xs with
      | nil => exact parseVal_arrNil f rest
      | cons x xs' =>
          have hb : pfuelItems (x :: xs') ≤ f := by
            simp only [pfuel] at hf
            omega
          have hres := parseItems_compact (x :: xs') (List.cons_ne_nil x xs')
            (by simpa [plainJson] using hp) f hb rest []
          rw [List.nil_append] at hres
          exact parseVal_arr_cons f x xs' rest hres
  | .obj fs => by
      intro hp fuel hf rest _
      obtain ⟨f, rfl⟩ : ∃ f, fuel = f + 1 :=
        ⟨fuel - 1, by have := pfuel_pos (Json.obj fs); omega⟩
      cases fs with
      | nil => exact parseVal_objNil f rest
      | cons g fs' =>
          have hb : pfuelFields (g :: fs') ≤ f := by
            simp only [pfuel] at hf
            omega
          have hres := parseFields_compact (g :: fs') (List.cons_ne_nil g fs')
            (by simpa [plainJson] using hp) f hb rest []
          rw [List.nil_append] at hres
          exact parseVal_obj_cons f g fs' rest hres

/-- `parseItems` consumes the comma-joined serializations of a non-empty item
list followed by the closing bracket, appending the items to the
accumulator. -/
theorem parseItems_compact : ∀ (xs : List Json), xs ≠ [] → plainItems xs = true →
    ∀ (fuel : Nat), pfuelItems xs ≤ fuel → ∀ (rest : PyStr) (acc : List Json),
    parseItems fuel (compactItems xs ++ ']' :: rest) acc
      = some (Json.arr (acc ++ xs), rest)
  | [] => by intro h; exact absurd rfl h
  | x :: xs' => by
      intro _ hp fuel hf rest acc
      have hp' : plainJson x = true ∧ plainItems xs' = true := by
        simpa [plainItems, Bool.and_eq_true] using hp
      obtain ⟨g, rfl⟩ : ∃ g, fuel = g + 1 :=
        ⟨fuel - 1, by simp only [pfuelItems] at hf; omega⟩
      have hbx : pfuel x ≤ g := by simp only [pfuelItems] at hf; omega
      simp only [parseItems]
      cases xs' with
      | nil =>
          rw [show compactItems [x] ++ ']' :: rest = compact x ++ (']' :: rest) from by
            simp [compactItems]]
          rw [parseVal_compact x hp'.1 g hbx (']' :: rest) (by simp [numSafe])]
          simp [skipWs_cons (by decide : isJsonWs ']' = false)]
      | cons y ys =>
          have hby : pfuelItems (y :: ys) ≤ g := by
            rw [show pfuelItems (x :: y :: ys)
                = 1 + pfuel x + pfuelItems (y :: ys) from rfl] at hf
            omega
          rw [show compactItems (x :: y :: ys) ++ ']' :: rest
              = compact x ++ (',' :: (compactItems (y :: ys) ++ ']' :: rest)) from by
            simp [compactItems]]
          rw [parseVal_compact x hp'.1 g hbx _ (by simp [numSafe])]
          simp only [skipWs_cons (by decide : isJsonWs ',' = false)]
          rw [parseItems_compact (y :: ys) (List.cons_ne_nil y ys) hp'.2 g hby rest
            (acc ++ [x])]
          simp

/-- `parseFields` consumes the comma-joined `"key": value` serializations of
a non-empty field list followed by the closing brace, appending the fields to
the accumulator. -/
theorem parseFields_compact : ∀ (fs : List (PyStr × Json)), fs ≠ [] →
    plainFields fs = true → ∀ (fuel : Nat), pfuelFields fs ≤ fuel →
    ∀ (rest : PyStr) (acc : List (PyStr × Json)),
    parseFields fuel (compactFields fs ++ '\x7d' :: rest) acc
      = some (Json.obj (acc ++ fs), rest)
  | [] => by intro h; exact absurd rfl h
  | (k, v) :: fs' => by
      intro _ hp fuel hf rest acc
      have hp' : plainStr k = true ∧ plainJson v = true ∧ plainFields fs' = true := by
        simpa [plainFields, Bool.and_eq_true, and_assoc] using hp
      obtain ⟨g, rfl⟩ : ∃ g, fuel = g + 1 :=
        ⟨fuel - 1, by simp only [pfuelFields] at hf; omega⟩
      have hbv : pfuel v ≤ g := by simp only [pfuelFields] at hf; omega
      simp only [parseFields]
      cases fs' with
      | nil =>
          rw [show compactFields [(k, v)] ++ '\x7d' :: rest
              = '"' :: (k ++ '"' :: (':' :: (' ' :: (compact v ++ '\x7d' :: rest))))
              from by simp [compactFields]]
          rw [skipWs_cons (by decide)]
          simp only [parseStringBody_plain k hp'.1,
            skipWs_cons (by decide : isJsonWs ':' = false), parseVal_ws,
            parseVal_compact v hp'.2.1 g hbv ('\x7d' :: rest) (by simp [numSafe]),
            skipWs_cons (by decide : isJsonWs '\x7d' = false)]
      | cons f2 fs'' =>
          have hbf : pfuelFields (f2 :: fs'') ≤ g := by
            rw [show pfuelFields ((k, v) :: f2 :: fs'')
                = 1 + pfuel v + pfuelFields (f2 :: fs'') from rfl] at hf
            omega
          rw [show compactFields ((k, v) :: f2 :: fs'') ++ '\x7d' :: rest
              = '"' :: (k ++ '"' :: (':' :: (' ' :: (compact v
                  ++ ',' :: (compactFields (f2 :: fs'') ++ '\x7d' :: rest)))))
              from by simp [compactFields]]
          rw [skipWs_cons (by decide)]
          simp only [parseStringBody_plain k hp'.1,
            skipWs_cons (by decide : isJsonWs ':' = false), parseVal_ws,
            parseVal_compact v hp'.2.1 g hbv
              (',' :: (compactFields (f2 :: fs'') ++ '\x7d' :: rest))
              (by simp [numSafe]),
            skipWs_cons (by decide : isJsonWs ',' = false)]
          rw [parseFields_compact (f2 :: fs'') (List.cons_ne_nil f2 fs'') hp'.2.2 g hbf
            rest (acc ++ [(k, v)])]
          simp

end

mutual

/-- The dispatch fuel `2 * len + 2` used by `decodeLine` dominates the fuel
a value's parse needs. -/
theorem pfuel_le : ∀ v : Json, pfuel v ≤ 2 * (compact v).length
  | .str s => by
      rw [show compact (Json.str s) = '"' :: (s ++ ['"']) from by simp [compact]]
      simp only [pfuel, List.length_cons, List.length_append, List.length_singleton]
      omega
  | .num n => by
      have h := List.length_pos.mpr (intRepr_ne_nil n)
      rw [show compact (Json.num n) = intRepr n from rfl]
      simp only [pfuel]
      omega
  | .bool b => by cases b <;> simp [pfuel, compact]
  | .null => by simp [pfuel, compact]
  | .arr xs => by
      have h := pfuelItems_le xs
      rw [show compact (Json.arr xs) = '[' :: (compactItems xs ++ [']']) from by
        simp [compact]]
      simp only [pfuel, List.length_cons, List.length_append, List.length_singleton]
      omega
  | .obj fs => by
      have h := pfuelFields_le fs
      rw [show compact (Json.obj fs) = '\x7b' :: (compactFields fs ++ ['\x7d']) from by
        simp [compact]]
      simp only [pfuel, List.length_cons, List.length_append, List.length_singleton]
      omega

theorem pfuelItems_le : ∀ xs : List Json,
    pfuelItems xs ≤ 2 * (compactItems xs).length + 1
  | [] => by simp [pfuelItems, compactItems]
  | x :: xs' => by
      have h1 := pfuel_le x
      cases xs' with
      | nil =>
          rw [show pfuelItems [x] = 1 + pfuel x + 0 from rfl,
            show (compactItems [x]).length = (compact x).length from by
              simp [compactItems]]
          omega
      | cons y ys =>
          have h2 := pfuelItems_le (y :: ys)
          rw [show pfuelItems (x :: y :: ys)
              = 1 + pfuel x + pfuelItems (y :: ys) from rfl,
            show (compactItems (x :: y :: ys)).length
              = (compact x).length + 1 + (compactItems (y :: ys)).length from by
              simp [compactItems]; omega]
          omega

theorem pfuelFields_le : ∀ fs : List (PyStr × Json),
    pfuelFields fs ≤ 2 * (compactFields fs).length + 1
  | [] => by simp [pfuelFields, compactFields]
  | (k, v) :: fs' => by
      have h1 := pfuel_le v
      cases fs' with
      | nil =>
          rw [show pfuelFields [(k, v)] = 1 + pfuel v + 0 from rfl,
            show (compactFields [(k, v)]).length
              = k.length + 4 + (compact v).length from by
              simp [compactFields]; omega]
          omega
      | cons f2 fs'' =>
          have h2 := pfuelFields_le (f2 :: fs'')
          rw [show pfuelFields ((k, v) :: f2 :: fs'')
              = 1 + pfuel v + pfuelFields (f2 :: fs'') from rfl,
            show (compactFields ((k, v) :: f2 :: fs'')).length
              = k.length + 5 + (compact v).length
                + (compactFields (f2 :: fs'')).length from by
              simp [compactFields]; omega]
          omega

end

/-- `json.loads` on the single-line serialization of a plain value returns
exactly that value. -/
theorem decodeLine_compact (o : Json) (h : plainJson o = true) :
    decodeLine (compact o) = some o := by
  unfold decodeLine
  have hb : pfuel o ≤ 2 * (compact o).length + 2 :=
    le_trans (pfuel_le o) (by omega)
  have h1 := parseVal_compact o h (2 * (compact o).length + 2) hb [] rfl
  rw [List.append_nil] at h1
  rw [h1]
  rfl

/-! ### The normalizer's emissions, stripped and decoded -/

theorem dropWhile_spc_append (l x : PyStr) (h : ∀ c ∈ l, isSpc c = true) :
    List.dropWhile isSpc (l ++ x) = List.dropWhile isSpc x := by
  induction l with
  | nil => rfl
  | cons c l' ih =>
      rw [List.cons_append, List.dropWhile_cons,
        if_pos (h c (List.mem_cons_self c l'))]
      exact ih (fun d hd => h d (List.mem_cons_of_mem c hd))

theorem pyStrip_spc_append (l x : PyStr) (h : ∀ c ∈ l, isSpc c = true) :
    pyStrip (l ++ x) = pyStrip x := by
  unfold pyStrip
  rw [dropWhile_spc_append l x h]

theorem pyStrip_keep {x : PyStr} (hne : x ≠ [])
    (hhead : ∀ c, x.head? = some c → isSpc c = false)
    (hlast : ∀ c, x.getLast? = some c → isSpc c = false) : pyStrip x = x := by
  obtain ⟨c, t, rfl⟩ := List.exists_cons_of_ne_nil hne
  have hc := hhead c rfl
  unfold pyStrip
  rw [dropWhile_head_false hc]
  obtain ⟨d, t', hd⟩ := List.exists_cons_of_ne_nil
    (show (c :: t).reverse ≠ [] from by simp)
  have hdlast : (c :: t).getLast? = some d := by
    rw [← List.head?_reverse, hd]
    rfl
  have hdns := hlast d hdlast
  rw [hd, dropWhile_head_false hdns, ← hd, List.reverse_reverse]

theorem pyStrip_compact (o : Json) : pyStrip (compact o) = compact o :=
  pyStrip_keep (compact_ne_nil o)
    (fun c hc => (compact_head o c hc).1)
    (fun c hc => compact_last o c hc)

theorem emitted_length : ∀ (l : PyStr) (os : List Json),
    (emitted l os).length = os.length
  | _, [] => rfl
  | l, o :: os => by
      simp only [emitted, List.length_cons, emitted_length ['\n'] os]

theorem emitted_strip : ∀ (os : List Json) (l : PyStr),
    (∀ c ∈ l, isSpc c = true) → (emitted l os).map pyStrip = os.map compact
  | [], _ => by intro _; rfl
  | o :: os, l => by
      intro hl
      simp only [emitted, List.map_cons]
      rw [pyStrip_spc_append l (compact o) hl, pyStrip_compact o,
        emitted_strip os ['\n'] (by intro c hc; simp at hc; subst hc; decide)]

theorem topObjOk_plain {o : Json} (h : topObjOk o = true) : plainJson o = true := by
  obtain ⟨f, fs', rfl, hpl, _⟩ := topObjOk_shape h
  simpa [plainJson] using hpl

/-! ## The claims -/

/-- C1 — "Normalizer round-trip: for every input file containing a JSON
array of N objects pretty-printed with the two-space indentation convention,
gcloudFormatter produces an output with exactly N lines, where the i-th line
is a valid single-line JSON object equal, as a JSON value, to the i-th input
object; emission order matches input order exactly, with no reordering and
no deduplication."  Verified for conforming records (non-empty objects with
plain strings and no array directly inside an array): the normalizer writes
exactly N strings, in input order, the i-th stripped to the i-th object's
single-line serialization, which `json.loads` decodes back to that very
object; the file content is those serializations newline-joined.  Refuted
without the restriction: see the counterexample, where an array nested
directly in an array makes the emitted line unparseable. -/
theorem normalizer_roundtrip (objs : List Json)
    (h : ∀ o ∈ objs, topObjOk o = true) :
    (gcloudFormatter (prettyArray objs)).length = objs.length ∧
    (gcloudFormatter (prettyArray objs)).map pyStrip = objs.map compact ∧
    (gcloudFormatter (prettyArray objs)).map (fun s => decodeLine (pyStrip s))
      = objs.map some ∧
    gcloudOutput (prettyArray objs) = nlJoined (objs.map compact) := by
  have hfmt := gcloudFormatter_pretty objs h
  have hstrip : (emitted [] objs).map pyStrip = objs.map compact :=
    emitted_strip objs [] (by intro c hc; simp at hc)
  refine ⟨?_, ?_, ?_, ?_⟩
  · rw [hfmt]
    exact emitted_length [] objs
  · rw [hfmt]
    exact hstrip
  · rw [hfmt]
    have hcomp : (emitted [] objs).map (fun s => decodeLine (pyStrip s))
        = ((emitted [] objs).map pyStrip).map decodeLine := by
      rw [List.map_map]
      rfl
    rw [hcomp, hstrip, List.map_map]
    apply List.map_congr_left
    intro o ho
    exact decodeLine_compact o (topObjOk_plain (h o ho))
  · show (gcloudFormatter (prettyArray objs)).flatten = _
    rw [hfmt, emitted_flatten]

/-- C1 counterexample — a single conforming-looking pretty-printed object
whose field holds the array `[[1]]`: the normalizer silently drops the inner
array's opening-bracket line, so the single output line is `{"a": [1]]}`,
which is not valid JSON (`json.loads` raises), refuting the unrestricted
round-trip claim. -/
theorem normalizer_roundtrip_counterexample :
    gcloudFormatter
        (prettyArray [Json.obj [("a".data, Json.arr [Json.arr [Json.num 1]])]])
      = [("\x7b\"a\": [1]]\x7d").data] ∧
    decodeLine (("\x7b\"a\": [1]]\x7d").data) = none := ⟨rfl, rfl⟩

/-- C1 witness — the round-trip instantiated at the one-record list
`[{"a": "b"}]`. -/
theorem normalizer_roundtrip_witness :
    (∀ o ∈ [exRecAB], topObjOk o = true) ∧
    ((gcloudFormatter (prettyArray [exRecAB])).length = [exRecAB].length ∧
     (gcloudFormatter (prettyArray [exRecAB])).map pyStrip = [exRecAB].map compact ∧
     (gcloudFormatter (prettyArray [exRecAB])).map (fun s => decodeLine (pyStrip s))
       = [exRecAB].map some ∧
     gcloudOutput (prettyArray [exRecAB]) = nlJoined ([exRecAB].map compact)) :=
  ⟨by decide, normalizer_roundtrip [exRecAB] (by decide)⟩

/-- C9 — "Newline-terminated output wire format: each emitted JSON object
occupies exactly one line and every line, including the last one, is
terminated by a newline character, with no enclosing array and no trailing
commas."  Partially verified: the output is the records' single-line
serializations (newline-free, no enclosing array, no trailing comma —
each record's serialization ends in `}`), SEPARATED by single newlines; but
the last line is NOT newline-terminated: for a non-empty record list the
file's final character is the closing brace `}`, not `\n`, refuting the
"including the last one" part (see the counterexample). -/
theorem wire_format (objs : List Json) (h : ∀ o ∈ objs, topObjOk o = true) :
    gcloudOutput (prettyArray objs) = nlJoined (objs.map compact) ∧
    (∀ o ∈ objs, ∀ c ∈ compact o, c ≠ '\n') ∧
    (objs ≠ [] → (gcloudOutput (prettyArray objs)).getLast? = some '\x7d') := by
  refine ⟨?_, ?_, ?_⟩
  · show (gcloudFormatter (prettyArray objs)).flatten = _
    rw [gcloudFormatter_pretty objs h, emitted_flatten]
  · intro o ho
    exact compact_nl o (topObjOk_plain (h o ho))
  · intro hne
    show (gcloudFormatter (prettyArray objs)).flatten.getLast? = _
    rw [gcloudFormatter_pretty objs h]
    refine emitted_flatten_last objs [] ?_ hne
    intro o ho
    obtain ⟨f, fs', heq, _, _⟩ := topObjOk_shape (h o ho)
    exact ⟨f :: fs', heq⟩

/-- C9 counterexample — the output for the single record `{"a": "b"}` is the
eleven characters `{"a": "b"}` with no trailing newline: the final character
is `}`, so the last line is not newline-terminated. -/
theorem wire_format_counterexample :
    gcloudOutput (prettyArray [exRecAB]) = ("\x7b\"a\": \"b\"\x7d").data ∧
    (gcloudOutput (prettyArray [exRecAB])).getLast? ≠ some '\n' :=
  ⟨rfl, by decide⟩

/-- C9 witness — the wire-format characterization instantiated at the
one-record list `[{"a": "b"}]`. -/
theorem wire_format_witness :
    (∀ o ∈ [exRecAB], topObjOk o = true) ∧
    (gcloudOutput (prettyArray [exRecAB]) = nlJoined ([exRecAB].map compact) ∧
     (∀ o ∈ [exRecAB], ∀ c ∈ compact o, c ≠ '\n') ∧
     ([exRecAB] ≠ [] →
       (gcloudOutput (prettyArray [exRecAB])).getLast? = some '\x7d')) :=
  ⟨by decide, wire_format [exRecAB] (by decide)⟩

end GcpLogToolbox
